import Mathlib

/-!
A shallow embedding of `ldapperf.c`, the LDAP load generator.

Bytes are natural numbers (`0` is the NUL terminator, `10` is the newline,
`64` is `'@'`).  A region of C memory holding a string is the list of its bytes
followed by the terminator.  `size_t` arithmetic is carried out modulo `2^64`,
`int` arithmetic that would leave the `int` range is a fault.  Operations of the
LDAP library and `rand()` are opaque: their outcomes are supplied by an oracle.
-/

namespace Ldapperf

/-! ## Faults and machine arithmetic -/

/-- Ways in which the C program can leave defined behaviour (or abort). -/
inductive Fault where
  | assert_failed
  | null_deref
  | out_of_bounds
  | div_by_zero
  | int_overflow
  | out_of_fuel
  deriving DecidableEq, Repr

deriving instance DecidableEq for Except

/-- The substitution character, `'@'`. -/
abbrev SUBST_CHAR : Nat := 64

/-- The newline byte. -/
abbrev NL : Nat := 10

/-- Number of values of a `size_t` (and of a `uint64_t`): `2^64`. -/
abbrev SIZE_MOD : Nat := 18446744073709551616

/-- Largest `int`. -/
abbrev INT_MAX : Int := 2147483647

/-- Addition of two `size_t` values. -/
def size_add (a b : Nat) : Nat := (a + b) % SIZE_MOD

/-- Subtraction of two `size_t` values (wraps around below zero). -/
def size_sub (a b : Nat) : Nat := (a % SIZE_MOD + SIZE_MOD - b % SIZE_MOD) % SIZE_MOD

/-- Bytes of a string literal. -/
def str (s : String) : List Nat := s.toList.map Char.toNat

/-! ## C strings and buffers -/

/-- The C function `strchr`: offset of the first byte equal to `c` in the string
stored in `s`; the terminator counts as part of the string.  Running off the end
of the region without meeting a terminator is a fault. -/
def strchr : List Nat → Nat → Except Fault (Option Nat)
  | [], _ => .error .out_of_bounds
  | b :: rest, c =>
    if b = c then .ok (some 0)
    else if b = 0 then .ok none
    else match strchr rest c with
      | .ok (some k) => .ok (some (k + 1))
      | .ok none => .ok none
      | .error f => .error f

/-- The C function `strlen` on a region that holds a terminated string. -/
def strlen : List Nat → Nat
  | [] => 0
  | b :: rest => if b = 0 then 0 else strlen rest + 1

/-- The string held by a region of memory: the bytes before the first NUL. -/
def cstring (mem : List Nat) : List Nat := mem.takeWhile (fun b => b ≠ 0)

/-- A writable buffer: its bytes, and the log of the offsets stored to so far
(oldest first). -/
structure OutBuf where
  mem : List Nat
  log : List Nat
  deriving DecidableEq, Repr

/-- The C function `memcpy(dst + d, src + s, n)`: a fault when it would read or
write outside of either region. -/
def memcpy (dst : OutBuf) (d : Nat) (src : List Nat) (s n : Nat) : Except Fault OutBuf :=
  if s + n ≤ src.length ∧ d + n ≤ dst.mem.length then
    .ok { mem := dst.mem.take d ++ (src.drop s).take n ++ dst.mem.drop (d + n),
          log := dst.log ++ List.range' d n }
  else .error .out_of_bounds

/-- The store `dst[d] = b`. -/
def store (dst : OutBuf) (d : Nat) (b : Nat) : Except Fault OutBuf :=
  if d < dst.mem.length then
    .ok { mem := dst.mem.set d b, log := dst.log ++ [d] }
  else .error .out_of_bounds

/-- Which of its two pointer arguments `lp_strpst` returned. -/
inductive StrRet where
  | ret_in
  | ret_out
  deriving DecidableEq, Repr

/-- The function `lp_strpst` (ldapperf.c:305): replaces the first `to_find` of
`in_` by `subst`, writing into `out`. -/
def lp_strpst (out : OutBuf) (outlen : Nat) (in_ : List Nat) (inlen : Nat)
    (subst : List Nat) (subst_len : Nat) (to_find : Nat) :
    Except Fault (StrRet × OutBuf) :=
  if ¬ (size_add inlen subst_len ≤ outlen) then .error .assert_failed
  else match strchr in_ to_find with
    | .error f => .error f
    | .ok none => .ok (.ret_in, out)
    | .ok (some p) =>
      let start_len := p
      let out_p := 0
      match memcpy out out_p in_ 0 start_len with
      | .error f => .error f
      | .ok out1 =>
        let out_p := out_p + start_len
        match memcpy out1 out_p subst 0 subst_len with
        | .error f => .error f
        | .ok out2 =>
          let out_p := out_p + subst_len
          let end_len := size_sub inlen (size_add start_len 1)
          match memcpy out2 out_p in_ (p + 1) end_len with
          | .error f => .error f
          | .ok out3 =>
            let out_p := out_p + end_len
            match store out3 out_p 0 with
            | .error f => .error f
            | .ok out4 => .ok (.ret_out, out4)

/-- The string a caller reads through the pointer returned by `lp_strpst`. -/
def returned_string (in_ : List Nat) (r : StrRet × OutBuf) : List Nat :=
  match r.1 with
  | .ret_in => cstring in_
  | .ret_out => cstring r.2.mem

/-- A freshly allocated buffer of `n` bytes (contents arbitrary, modelled as
`0xAA` filler) with an empty store log. -/
def malloc_buf (n : Nat) : OutBuf := { mem := List.replicate n 170, log := [] }

/-! ## The name corpus: `lp_names_file` -/

/-- A corpus entry `lp_name_t`: `name` is `none` for a NULL pointer, otherwise
the allocated region (the name followed by its terminator). -/
structure lp_name_t where
  len : Nat
  name : Option (List Nat)
  deriving DecidableEq, Repr

/-- Contents of a slot of the `names` array that was allocated but never
assigned. -/
def uninit_name : lp_name_t := { len := 0, name := none }

/-- The reading loop of `fgets`: takes bytes up to and including the first
newline, at most `n` of them. Returns the bytes read and the unread rest. -/
def fgets_read : Nat → List Nat → List Nat × List Nat
  | 0, stream => ([], stream)
  | _ + 1, [] => ([], [])
  | n + 1, b :: rest =>
    if b = NL then ([b], rest)
    else ((b :: (fgets_read n rest).1), (fgets_read n rest).2)

/-- The C function `fgets(buffer, size, file)`: `none` (NULL) at end of file,
otherwise the buffer contents, terminator included, and the unread rest of the
stream. -/
def fgets (size : Nat) (stream : List Nat) : Option (List Nat × List Nat) :=
  match stream with
  | [] => none
  | _ :: _ => some ((fgets_read (size - 1) stream).1 ++ [0], (fgets_read (size - 1) stream).2)

/-- The C function `realloc(names, sizeof(lp_name_t) * n)`: the old slots are
kept, the new ones are unassigned.  Allocation is assumed to succeed. -/
def realloc_names (names : Option (List lp_name_t)) (n : Nat) : List lp_name_t :=
  match names with
  | none => List.replicate n uninit_name
  | some arr => arr.take n ++ List.replicate (n - arr.length) uninit_name

/-- Local variables of `lp_names_file` that live across the reading loop.
`names` is `none` while the pointer is NULL. -/
structure NamesState where
  names : Option (List lp_name_t)
  idx : Nat
  cnt : Nat
  max : Nat
  deriving DecidableEq, Repr

/-- One run of the body of the `while (fgets(...))` loop of `lp_names_file`
(ldapperf.c:247-265) on the buffer just read. -/
def names_body (st : NamesState) (buffer : List Nat) : Except Fault NamesState :=
  let len := strlen buffer
  if len = 0 then .ok st
  else
    let len := len - 1
    if len = 0 then .ok st
    else
      let p := buffer.take len ++ [0]
      if st.idx = st.cnt ∧ (st.cnt : Int) + 1000 > INT_MAX then .error .int_overflow
      else
        let cnt := if st.idx = st.cnt then st.cnt + 1000 else st.cnt
        let names := if st.idx = st.cnt then some (realloc_names st.names (cnt + 1))
          else st.names
        match names with
        | none => .error .null_deref
        | some arr =>
          if st.idx < arr.length then
            let arr := arr.set st.idx { len := len, name := some p }
            let max := if len > st.max then len else st.max
            if (st.idx : Int) + 1 > INT_MAX then .error .int_overflow
            else .ok { names := some arr, idx := st.idx + 1, cnt := cnt, max := max }
          else .error .out_of_bounds

/-- The `while (fgets(buffer, sizeof(buffer), file))` loop of `lp_names_file`,
with `buffer` of 1024 bytes.  Every round consumes at least one byte of the
stream, so a fuel of more than the length of the stream is never used up. -/
def names_loop : Nat → List Nat → NamesState → Except Fault NamesState
  | 0, _, _ => .error .out_of_fuel
  | fuel + 1, stream, st =>
    match fgets 1024 stream with
    | none => .ok st
    | some (buffer, rest) =>
      match names_body st buffer with
      | .error f => .error f
      | .ok st1 => names_loop fuel rest st1

/-- The function `lp_names_file` (ldapperf.c:227).  The argument is the content
of the file at `path`, or `none` when it cannot be opened.  The result is the
returned `int` together with the value of `*out` (initially NULL). -/
def lp_names_file (file : Option (List Nat)) :
    Except Fault (Int × Option (List lp_name_t)) :=
  match file with
  | none => .ok (-1, none)
  | some content =>
    match names_loop (content.length + 1) content { names := none, idx := 0, cnt := 0, max := 0 } with
    | .error f => .error f
    | .ok st =>
      match st.names with
      | none => .error .null_deref
      | some arr =>
        if st.idx < arr.length then
          .ok ((st.idx : Int), some (arr.set st.idx { len := st.max, name := none }))
        else .error .out_of_bounds

/-- The lines of a text, as the specification of the names file understands
them: the runs of bytes between newlines, each ended by a newline or by the end
of the text. -/
def split_lines : List Nat → List (List Nat)
  | [] => []
  | b :: rest =>
    if b = NL then [] :: split_lines rest
    else match split_lines rest with
      | [] => [[b]]
      | l :: ls => (b :: l) :: ls

/-- The non-empty lines of a names source, in file order (the entries the
specification expects). -/
def non_empty_lines (content : List Nat) : List (List Nat) :=
  (split_lines content).filter (fun l => l ≠ [])

/-- The corpus entry for a line: the line as a terminated string, and its
length. -/
def entry_of (l : List Nat) : lp_name_t := { len := l.length, name := some (l ++ [0]) }

/-- Length of the longest of a list of lines (`0` when there is none). -/
def longest (ls : List (List Nat)) : Nat := ls.foldr (fun l m => Nat.max l.length m) 0

/-- The property the specification states of the name corpus for the names
source `content`: `lp_names_file` returns the number `K` of non-empty lines, the
first `K` slots of the array are the non-empty lines in file order with their
lengths, and slot `K` holds the length of the longest one. -/
def names_file_as_specified (content : List Nat) : Prop :=
  ∃ arr, lp_names_file (some content) = .ok (((non_empty_lines content).length : Int), some arr) ∧
    arr.take (non_empty_lines content).length = (non_empty_lines content).map entry_of ∧
    (arr.get? (non_empty_lines content).length).map (fun e => e.len)
      = some (longest (non_empty_lines content))

/-! ## Workers: connection lifecycle, query, worker loop -/

/-- The C `struct timeval`. -/
structure timeval where
  tv_sec : Int
  tv_usec : Int
  deriving DecidableEq, Repr

/-- Statistics record `lp_stats_t`; the counters are `uint64_t`. -/
structure lp_stats_t where
  successful : Nat
  error_session_init : Nat
  error_bind_fail : Nat
  error_search_fail : Nat
  before : timeval
  after : timeval
  deriving DecidableEq, Repr

/-- Increment of a `uint64_t` counter. -/
def incr64 (x : Nat) : Nat := (x + 1) % SIZE_MOD

/-- Addition of two `uint64_t` counters. -/
def add64 (x y : Nat) : Nat := (x + y) % SIZE_MOD

/-- Per-thread record `lp_thread_t` (the pthread handle is left out).  A buffer
pointer that is NULL is a buffer of zero bytes. -/
structure lp_thread_t where
  number : Int
  base_dn : OutBuf
  base_dn_len : Nat
  filter : OutBuf
  filter_len : Nat
  stats : lp_stats_t
  deriving DecidableEq, Repr

/-- The global variables of ldapperf.c that the engine reads.  Strings are
regions of memory (terminator included), `none` is a NULL pointer. -/
structure Globals where
  rebind : Bool
  ordered : Bool
  bind_dn : Option (List Nat)
  password : Option (List Nat)
  base_dn : Option (List Nat)
  base_dn_len : Nat
  filter : Option (List Nat)
  filter_len : Nat
  do_subst : Bool
  num_loops : Int
  num_pthreads : Int
  names_file : Option (List Nat)
  names : Option (List lp_name_t)
  names_cnt : Int
  deriving DecidableEq, Repr

/-- Outcomes of the opaque library calls that one pass of the worker loop may
make: whether the session set-up call, the bind and the search report success,
and the value returned by `rand()`. -/
structure PassOracle where
  session_ok : Bool
  bind_ok : Bool
  rand : Nat
  search_ok : Bool
  deriving DecidableEq, Repr

/-- An open LDAP session (`LDAP *`), with whether a bind was performed on it. -/
structure LDAP where
  bound : Bool
  deriving DecidableEq, Repr

/-- Observable actions of a worker, in the order they happen. -/
inductive Event where
  | conn_init
  | unbind
  | search (pass : Nat) (subst : Option lp_name_t) (base_dn : List Nat)
      (filter : Option (List Nat)) (ok : Bool)
  deriving DecidableEq, Repr

/-- The function `lp_conn_init` (ldapperf.c:334): the new session, or `none`
(NULL) after counting the failure. -/
def lp_conn_init (g : Globals) (thread : lp_thread_t) (o : PassOracle) :
    Option LDAP × lp_thread_t :=
  if ¬ o.session_ok then
    (none, { thread with stats := { thread.stats with
      error_session_init := incr64 thread.stats.error_session_init } })
  else if g.bind_dn.isSome ∧ g.password.isSome then
    if ¬ o.bind_ok then
      (none, { thread with stats := { thread.stats with
        error_bind_fail := incr64 thread.stats.error_bind_fail } })
    else (some { bound := true }, thread)
  else (some { bound := false }, thread)

/-- The function `lp_conn_close` (ldapperf.c:373): nothing happens on a NULL
session, otherwise the session is released and the pointer set to NULL.
Returns the new pointer and the events. -/
def lp_conn_close (ld : Option LDAP) : Option LDAP × List Event :=
  match ld with
  | none => (none, [])
  | some _ => (none, [Event.unbind])

/-- Result of `lp_query_perform`: the returned `int`, the updated thread, and
the base DN and filter that were handed to the search. -/
structure QueryResult where
  rc : Int
  thread : lp_thread_t
  base_dn_p : List Nat
  filter_p : Option (List Nat)
  deriving DecidableEq, Repr

/-- The substitution part of `lp_query_perform` (ldapperf.c:392-403) for one
template: the string searched with and the buffer after the call. -/
def subst_template (buf : OutBuf) (buflen : Nat) (template : List Nat) (template_len : Nat)
    (subst : lp_name_t) : Except Fault (List Nat × OutBuf) :=
  match subst.name with
  | none => .error .null_deref
  | some name =>
    match lp_strpst buf buflen template template_len name subst.len SUBST_CHAR with
    | .error f => .error f
    | .ok r => .ok (returned_string template r, r.2)

/-- The block "Perform substitutions" of `lp_query_perform`
(ldapperf.c:392-403): the thread with its buffers after the block, and the
base DN and filter to search with. -/
def perform_substitutions (g : Globals) (thread : lp_thread_t) (base_dn : List Nat)
    (subst : Option lp_name_t) : Except Fault (lp_thread_t × List Nat × Option (List Nat)) :=
  match subst with
  | none => .ok (thread, cstring base_dn, g.filter.map cstring)
  | some e =>
    match g.filter with
    | none =>
      match subst_template thread.base_dn thread.base_dn_len base_dn g.base_dn_len e with
      | .error f => .error f
      | .ok (bp, buf) => .ok ({ thread with base_dn := buf }, bp, none)
    | some filter =>
      match subst_template thread.filter thread.filter_len filter g.filter_len e with
      | .error f => .error f
      | .ok (fp, fbuf) =>
        match subst_template thread.base_dn thread.base_dn_len base_dn g.base_dn_len e with
        | .error f => .error f
        | .ok (bp, buf) => .ok ({ thread with filter := fbuf, base_dn := buf }, bp, some fp)

/-- The function `lp_query_perform` (ldapperf.c:381).  Decoding of the result
has no effect on the state and is left out. -/
def lp_query_perform (g : Globals) (thread : lp_thread_t) (subst : Option lp_name_t)
    (o : PassOracle) : Except Fault QueryResult :=
  match g.base_dn with
  | none => .error .null_deref
  | some base_dn =>
    match perform_substitutions g thread base_dn subst with
    | .error f => .error f
    | .ok (thread2, base_dn_p, filter_p) =>
      if ¬ o.search_ok then
        .ok { rc := -1,
              thread := { thread2 with stats := { thread2.stats with
                error_search_fail := incr64 thread2.stats.error_search_fail } },
              base_dn_p := base_dn_p, filter_p := filter_p }
      else
        .ok { rc := 0,
              thread := { thread2 with stats := { thread2.stats with
                successful := incr64 thread2.stats.successful } },
              base_dn_p := base_dn_p, filter_p := filter_p }

/-- State of a running worker: its thread record, the local `ld` of
`enter_thread`, and the events so far (oldest first). -/
structure Worker where
  thread : lp_thread_t
  ld : Option LDAP
  trace : List Event
  deriving DecidableEq, Repr

/-- The entry `names[k]` that a pointer `&names[k]` leads to. -/
def names_at (g : Globals) (k : Nat) : Except Fault lp_name_t :=
  match g.names with
  | none => .error .null_deref
  | some arr =>
    match arr.get? k with
    | none => .error .out_of_bounds
    | some e => .ok e

/-- The choice of the entry to substitute (ldapperf.c:486): `&names[i]` in
ordered mode, `&names[rand() % names_cnt]` otherwise, NULL without
substitution. -/
def choose_subst (g : Globals) (i : Nat) (o : PassOracle) : Except Fault (Option lp_name_t) :=
  if g.do_subst then
    if g.ordered then
      match names_at g i with
      | .error f => .error f
      | .ok e => .ok (some e)
    else if g.names_cnt = 0 then .error .div_by_zero
    else
      match names_at g ((o.rand : Int) % g.names_cnt).toNat with
      | .error f => .error f
      | .ok e => .ok (some e)
  else .ok none

/-- The statement `if (!ld) ld = lp_conn_init(thread);` at the head of the loop
body of `enter_thread` (ldapperf.c:482). -/
def ensure_conn (g : Globals) (o : PassOracle) (w : Worker) : Worker :=
  match w.ld with
  | some _ => w
  | none =>
    { thread := (lp_conn_init g w.thread o).2, ld := (lp_conn_init g w.thread o).1,
      trace := w.trace ++ [Event.conn_init] }

/-- One pass `i` of the `for` loop of `enter_thread` (ldapperf.c:479-496). -/
def pass (g : Globals) (o : PassOracle) (i : Nat) (w : Worker) : Except Fault Worker :=
  match (ensure_conn g o w).ld with
  | none => .ok (ensure_conn g o w)
  | some _ =>
    match choose_subst g i o with
    | .error f => .error f
    | .ok subst =>
      match lp_query_perform g (ensure_conn g o w).thread subst o with
      | .error f => .error f
      | .ok q =>
        if q.rc < 0 then
          .ok { thread := q.thread, ld := (lp_conn_close (ensure_conn g o w).ld).1,
                trace := (ensure_conn g o w).trace
                  ++ [Event.search i subst q.base_dn_p q.filter_p (decide (q.rc = 0))]
                  ++ (lp_conn_close (ensure_conn g o w).ld).2 }
        else if g.rebind then
          .ok { thread := q.thread, ld := (lp_conn_close (ensure_conn g o w).ld).1,
                trace := (ensure_conn g o w).trace
                  ++ [Event.search i subst q.base_dn_p q.filter_p (decide (q.rc = 0))]
                  ++ (lp_conn_close (ensure_conn g o w).ld).2 }
        else
          .ok { thread := q.thread, ld := (ensure_conn g o w).ld,
                trace := (ensure_conn g o w).trace
                  ++ [Event.search i subst q.base_dn_p q.filter_p (decide (q.rc = 0))] }

/-- The worker after the first `n` passes of the loop of `enter_thread`, that
is at the start of pass `n`; `o i` gives the outcomes for pass `i`. -/
def passes (g : Globals) (o : Nat → PassOracle) : Nat → Worker → Except Fault Worker
  | 0, w => .ok w
  | n + 1, w =>
    match passes g o n w with
    | .error f => .error f
    | .ok w1 => pass g (o n) n w1

/-- The worker before the loop of `enter_thread` (ldapperf.c:469-477): no
session, and the start time `t0` recorded in the statistics. -/
def worker_start (thread : lp_thread_t) (t0 : timeval) : Worker :=
  { thread := { thread with stats := { thread.stats with before := t0 } },
    ld := none, trace := [] }

/-- The end of `enter_thread` (ldapperf.c:498-501): the final `lp_conn_close`
and the end time `t1`. -/
def worker_finish (w : Worker) (t1 : timeval) : Worker :=
  { thread := { w.thread with stats := { w.thread.stats with after := t1 } },
    ld := (lp_conn_close w.ld).1, trace := w.trace ++ (lp_conn_close w.ld).2 }

/-- The function `enter_thread` (ldapperf.c:467): `num_loops` passes, then the
final `lp_conn_close`.  `t0` and `t1` are the two readings of the clock. -/
def enter_thread (g : Globals) (o : Nat → PassOracle) (t0 t1 : timeval) (thread : lp_thread_t) :
    Except Fault Worker :=
  match passes g o g.num_loops.toNat (worker_start thread t0) with
  | .error f => .error f
  | .ok w => .ok (worker_finish w t1)

/-! ## The run controller: `main` -/

/-- The zero time stamp of zero-filled memory. -/
def zero_time : timeval := { tv_sec := 0, tv_usec := 0 }

/-- A statistics record in zero-filled memory. -/
def zero_stats : lp_stats_t :=
  { successful := 0, error_session_init := 0, error_bind_fail := 0, error_search_fail := 0,
    before := zero_time, after := zero_time }

/-- A thread record as left by `memset(threads, 0, ...)` (ldapperf.c:664). -/
def zero_thread : lp_thread_t :=
  { number := 0, base_dn := { mem := [], log := [] }, base_dn_len := 0,
    filter := { mem := [], log := [] }, filter_len := 0, stats := zero_stats }

/-- The buffer allocation loop of `main` (ldapperf.c:676-688) over the thread
array: each record gets a base DN buffer of `base_dn_len + names[names_cnt].len`
bytes and a filter buffer of `filter_len + names[names_cnt].len` bytes. -/
def alloc_buffers (g : Globals) : List lp_thread_t → Except Fault (List lp_thread_t)
  | [] => .ok []
  | t :: ts =>
    match g.names with
    | none => .error .null_deref
    | some arr =>
      match arr.get? g.names_cnt.toNat with
      | none => .error .out_of_bounds
      | some last =>
        match alloc_buffers g ts with
        | .error f => .error f
        | .ok ts1 =>
          .ok ({ t with
                  base_dn_len := size_add g.base_dn_len last.len,
                  base_dn := malloc_buf (size_add g.base_dn_len last.len),
                  filter_len := size_add g.filter_len last.len,
                  filter := malloc_buf (size_add g.filter_len last.len) } :: ts1)

/-- What the part of `main` before the threads are started leaves behind: an
early `exit` with a status, or the globals in effect and the thread array. -/
inductive Setup where
  | exited (code : Int)
  | ready (g : Globals) (threads : List lp_thread_t)
  deriving DecidableEq, Repr

/-- The three checks of the configuration in `main` (ldapperf.c:647-660):
`true` when one of them ends the program through `usage(argv[0], 64)`. -/
def config_rejected (g : Globals) : Except Fault Bool :=
  match g.base_dn with
  | none => .ok true
  | some base_dn =>
    if g.ordered ∧ ¬ g.do_subst then .ok true
    else if g.do_subst then
      match strchr base_dn SUBST_CHAR with
      | .error f => .error f
      | .ok (some _) => .ok false
      | .ok none =>
        match g.filter with
        | none => .ok true
        | some filter =>
          match strchr filter SUBST_CHAR with
          | .error f => .error f
          | .ok (some _) => .ok false
          | .ok none => .ok true
    else .ok false

/-- Loading of the corpus in `main` (ldapperf.c:668-671): `none` when the
program ends through `exit(1)`.  `fs` gives the content of the file at a path
(`none` when it cannot be opened). -/
def load_names (g : Globals) (fs : List Nat → Option (List Nat)) : Except Fault (Option Globals) :=
  match g.names_file with
  | none => .ok (some g)
  | some path =>
    match lp_names_file (fs path) with
    | .error f => .error f
    | .ok (cnt, out) =>
      if cnt < 0 then .ok none
      else .ok (some { g with names_cnt := cnt, names := out })

/-- The two assignments of the template lengths in `main`
(ldapperf.c:673-674). -/
def set_template_lengths (g : Globals) : Globals :=
  { g with
    base_dn_len := match g.base_dn with
      | none => g.base_dn_len
      | some base_dn => strlen base_dn,
    filter_len := match g.filter with
      | none => g.filter_len
      | some filter => strlen filter }

/-- The block `if (do_subst) { ... }` of `main` (ldapperf.c:667-689) on the
zero-filled thread array: `none` when the program ends through `exit(1)`. -/
def main_allocate (g : Globals) (fs : List Nat → Option (List Nat))
    (threads : List lp_thread_t) : Except Fault (Option (Globals × List lp_thread_t)) :=
  if g.do_subst then
    match load_names g fs with
    | .error f => .error f
    | .ok none => .ok none
    | .ok (some g1) =>
      match alloc_buffers (set_template_lengths g1) threads with
      | .error f => .error f
      | .ok threads1 => .ok (some (set_template_lengths g1, threads1))
  else .ok (some (g, threads))

/-- The override of the thread and loop counts for an ordered search
(ldapperf.c:692-695). -/
def apply_ordered (g : Globals) : Globals :=
  if g.ordered then { g with num_pthreads := 1, num_loops := g.names_cnt } else g

/-- The part of `main` after option parsing and before the threads are started
(ldapperf.c:647-695).  `g` holds the globals as set by the options.  The thread
array is allocated with `malloc(sizeof(lp_thread_t) * num_pthreads)` and
zero-filled; with a negative `num_pthreads` the size wraps around to more than
`2^64 - 2^38` bytes, the allocation fails and the zero-fill writes through
NULL. -/
def main_setup (g : Globals) (fs : List Nat → Option (List Nat)) : Except Fault Setup :=
  match config_rejected g with
  | .error f => .error f
  | .ok true => .ok (.exited 64)
  | .ok false =>
    if g.num_pthreads < 0 then .error .null_deref
    else
      match main_allocate g fs (List.replicate g.num_pthreads.toNat zero_thread) with
      | .error f => .error f
      | .ok none => .ok (.exited 1)
      | .ok (some (g1, threads)) => .ok (.ready (apply_ordered g1) threads)

/-- Clock readings and outcomes of the opaque calls for a whole run:
`outcome t i` is for pass `i` of thread `t`. -/
structure RunOracle where
  outcome : Nat → Nat → PassOracle
  thread_before : Nat → timeval
  thread_after : Nat → timeval
  run_before : timeval
  run_after : timeval

/-- The thread array and the traces after the first `n` threads were created
and ran (ldapperf.c:708-714; thread creation is assumed to succeed).  The
threads share no mutable state, so each one is run on its own record. -/
def main_spawn (g : Globals) (r : RunOracle) :
    Nat → List lp_thread_t → Except Fault (List lp_thread_t × List (List Event))
  | 0, threads => .ok (threads, [])
  | n + 1, threads =>
    match main_spawn g r n threads with
    | .error f => .error f
    | .ok (ths, traces) =>
      match ths.get? n with
      | none => .error .out_of_bounds
      | some t =>
        match enter_thread g (r.outcome n) (r.thread_before n) (r.thread_after n)
            { t with number := (n : Int) } with
        | .error f => .error f
        | .ok w => .ok (ths.set n w.thread, traces ++ [w.trace])

/-- The body of the join loop (ldapperf.c:721-724): adds the counters of one
thread to the totals. -/
def stats_add (stats : lp_stats_t) (t : lp_stats_t) : lp_stats_t :=
  { stats with
    successful := add64 stats.successful t.successful,
    error_session_init := add64 stats.error_session_init t.error_session_init,
    error_bind_fail := add64 stats.error_bind_fail t.error_bind_fail,
    error_search_fail := add64 stats.error_search_fail t.error_search_fail }

/-- The totals after the first `n` rounds of the join loop of `main`
(ldapperf.c:717-728), starting from `stats`. -/
def main_join (threads : List lp_thread_t) (stats : lp_stats_t) : Nat → Except Fault lp_stats_t
  | 0 => .ok stats
  | n + 1 =>
    match main_join threads stats n with
    | .error f => .error f
    | .ok s =>
      match threads.get? n with
      | none => .error .out_of_bounds
      | some t => .ok (stats_add s t.stats)

/-- The exit status chosen at the end of `main` (ldapperf.c:737-743). -/
def exit_status (stats : lp_stats_t) : Int :=
  if stats.error_session_init > 0 ∨ stats.error_bind_fail > 0 ∨ stats.error_search_fail > 0
  then 1 else 0

/-- What a finished run leaves behind. -/
structure RunResult where
  status : Int
  stats : lp_stats_t
  globals : Globals
  threads : List lp_thread_t
  traces : List (List Event)
  deriving DecidableEq, Repr

/-- How `main` ends: an early `exit`, or a run that reached the end. -/
inductive MainEnd where
  | exited (code : Int)
  | finished (res : RunResult)
  deriving DecidableEq, Repr

/-- The function `main` (ldapperf.c:546) after option parsing. -/
def main (g : Globals) (fs : List Nat → Option (List Nat)) (r : RunOracle) :
    Except Fault MainEnd :=
  match main_setup g fs with
  | .error f => .error f
  | .ok (.exited code) => .ok (.exited code)
  | .ok (.ready g1 threads) =>
    match main_spawn g1 r g1.num_pthreads.toNat threads with
    | .error f => .error f
    | .ok (threads1, traces) =>
      match main_join threads1 { zero_stats with before := r.run_before } g1.num_pthreads.toNat with
      | .error f => .error f
      | .ok stats =>
        .ok (.finished { status := exit_status { stats with after := r.run_after },
                         stats := { stats with after := r.run_after },
                         globals := g1, threads := threads1, traces := traces })

/-- The globals as initialised in ldapperf.c:100-129 (no option given). -/
def default_globals : Globals :=
  { rebind := false, ordered := false, bind_dn := none, password := none,
    base_dn := none, base_dn_len := 0, filter := none, filter_len := 0,
    do_subst := false, num_loops := 10, num_pthreads := 5, names_file := none,
    names := none, names_cnt := 0 }

/-- An oracle under which every call succeeds and `rand()` returns `k`. -/
def all_ok (k : Nat) : PassOracle :=
  { session_ok := true, bind_ok := true, rand := k, search_ok := true }

/-- A run oracle with the same outcomes in every pass of every thread. -/
def const_oracle (o : PassOracle) : RunOracle :=
  { outcome := fun _ _ => o, thread_before := fun _ => zero_time,
    thread_after := fun _ => zero_time, run_before := zero_time, run_after := zero_time }

/-- A file system with a single file. -/
def one_file (path content : List Nat) : List Nat → Option (List Nat) :=
  fun p => if p = path then some content else none

/-! ## Elapsed time: `lp_timeval_sub` -/

/-- The constant `USEC`: microseconds in a second. -/
abbrev USEC : Int := 1000000

/-- Largest value of `time_t` and of `suseconds_t` (a 64-bit `long`). -/
abbrev LONG_MAX : Int := 9223372036854775807

/-- Smallest value of `time_t` and of `suseconds_t` (a 64-bit `long`). -/
abbrev LONG_MIN : Int := -9223372036854775808

/-- The result of an arithmetic operation on `long` values: a fault when it
leaves the range of the type (signed overflow). -/
def long_result (x : Int) : Except Fault Int :=
  if LONG_MIN ≤ x ∧ x ≤ LONG_MAX then .ok x else .error .int_overflow

/-- The function `lp_timeval_sub` (ldapperf.c:177): the value stored in
`*elapsed`, which is a third object next to `*after` and `*before`. -/
def lp_timeval_sub (after before : timeval) : Except Fault timeval :=
  match long_result (after.tv_sec - before.tv_sec) with
  | .error f => .error f
  | .ok sec0 =>
    match (if sec0 > 0 then
        match long_result (sec0 - 1) with
        | .error f => .error f
        | .ok sec => .ok (sec, USEC)
      else .ok (sec0, 0) : Except Fault (Int × Int)) with
    | .error f => .error f
    | .ok (sec1, usec0) =>
      match long_result (usec0 + after.tv_usec) with
      | .error f => .error f
      | .ok usec1 =>
        match long_result (usec1 - before.tv_usec) with
        | .error f => .error f
        | .ok usec2 =>
          if usec2 ≥ USEC then
            match long_result (usec2 - USEC) with
            | .error f => .error f
            | .ok usec3 =>
              match long_result (sec1 + 1) with
              | .error f => .error f
              | .ok sec2 => .ok { tv_sec := sec2, tv_usec := usec3 }
          else .ok { tv_sec := sec1, tv_usec := usec2 }

/-! ## Notions used to state the properties -/

/-- Sum of the four counters of a statistics record. -/
def total (s : lp_stats_t) : Nat :=
  s.successful + s.error_session_init + s.error_bind_fail + s.error_search_fail

/-- Whether `lp_conn_init` yields a session under the outcomes `o`: the session
set-up succeeds, and so does the bind when a bind DN and password are set. -/
def opens_and_binds (g : Globals) (o : PassOracle) : Bool :=
  o.session_ok && (!(g.bind_dn.isSome && g.password.isSome) || o.bind_ok)

/-- Number of calls of `lp_conn_init` in a trace. -/
def init_calls (tr : List Event) : Nat := tr.count Event.conn_init

/-- The entries that a trace shows as substituted, in order. -/
def substituted (tr : List Event) : List lp_name_t :=
  tr.filterMap (fun ev => match ev with
    | Event.search _ (some e) _ _ _ => some e
    | _ => none)

/-- What option parsing (ldapperf.c:556-645) guarantees of the globals: the
substitution flag is set exactly when a names file was given, and the corpus and
the template lengths still have their initial values. -/
def after_getopt (g : Globals) : Prop :=
  g.do_subst = g.names_file.isSome ∧ g.names = none ∧ g.names_cnt = 0 ∧
  g.base_dn_len = 0 ∧ g.filter_len = 0

/-- The `int` globals hold values of type `int` (the lower bound is not
needed). -/
def ints_in_range (g : Globals) : Prop :=
  g.num_loops ≤ INT_MAX ∧ g.num_pthreads ≤ INT_MAX ∧ g.names_cnt ≤ INT_MAX

/-- The text made of the given lines, each followed by a newline. -/
def join_lines : List (List Nat) → List Nat
  | [] => []
  | l :: ls => l ++ NL :: join_lines ls

/-- The state of the reading loop of `lp_names_file` stands for the non-empty
lines `ls` read so far: `idx` of the allocated slots hold their entries, `max` is
the length of the longest, and the array is still NULL only if there are none. -/
def names_inv (st : NamesState) (ls : List (List Nat)) : Prop :=
  st.idx = ls.length ∧ st.max = longest ls ∧ st.idx ≤ st.cnt ∧
  ((ls = [] ∧ st.names = none ∧ st.cnt = 0) ∨
    (∃ arr, st.names = some arr ∧ arr.length = st.cnt + 1 ∧ arr.take st.idx = ls.map entry_of))

/-- A corpus entry holds a name of `len` bytes followed by its terminator, and
`len` is at most `M`. -/
def entry_fits (M : Nat) (e : lp_name_t) : Prop :=
  ∃ nm, e.name = some nm ∧ nm.length = e.len + 1 ∧ e.len ≤ M

/-- The entries stored so far by the reading loop of `lp_names_file` are names
of at most `max` bytes, and `max` is below the size of the line buffer. -/
def names_wf (st : NamesState) : Prop :=
  st.max ≤ 1022 ∧ (st.names = none → st.idx = 0) ∧
  ∀ arr, st.names = some arr → ∀ i, i < st.idx → ∃ e, arr.get? i = some e ∧ entry_fits st.max e

/-- The templates are C strings and the globals hold their lengths, as after
the assignments at ldapperf.c:673-674. -/
def templates_ok (g : Globals) : Prop :=
  (∃ b, g.base_dn = some (b ++ [0]) ∧ 0 ∉ b ∧ g.base_dn_len = b.length) ∧
  (∀ fr, g.filter = some fr → ∃ f, fr = f ++ [0] ∧ 0 ∉ f ∧ g.filter_len = f.length)

/-- The two buffers of a thread record have the recorded sizes, and a template
together with a name of at most `M` bytes fits into each. -/
def buffers_fit (g : Globals) (M : Nat) (t : lp_thread_t) : Prop :=
  g.base_dn_len + M ≤ t.base_dn_len ∧ t.base_dn_len ≤ t.base_dn.mem.length ∧
  t.base_dn_len < SIZE_MOD ∧
  g.filter_len + M ≤ t.filter_len ∧ t.filter_len ≤ t.filter.mem.length ∧
  t.filter_len < SIZE_MOD

/-- The base DN and the filter given on the command line are C strings (as
every `optarg` is), short enough for a length plus 1022 to be a `size_t`. -/
def strings_ok (g : Globals) : Prop :=
  (∃ b, g.base_dn = some (b ++ [0]) ∧ 0 ∉ b ∧ b.length + 1022 < SIZE_MOD) ∧
  (∀ fr, g.filter = some fr → ∃ f, fr = f ++ [0] ∧ 0 ∉ f ∧ f.length + 1022 < SIZE_MOD)

/-- Whether the session of a worker is open at the start of pass `n`, as the
loop of `enter_thread` makes it: closed before pass 0, and open after a pass
that held a session, made a successful search and did not rebind. -/
def session_at (g : Globals) (o : Nat → PassOracle) : Nat → Bool
  | 0 => false
  | n + 1 =>
    (session_at g o n || (lp_conn_init g zero_thread (o n)).1.isSome)
      && (o n).search_ok && !g.rebind

/-- Whether pass `i` of a worker holds a session after the statement
`if (!ld) ld = lp_conn_init(thread);`, that is, whether it goes on to choose an
entry and search. -/
def holds_session (g : Globals) (o : Nat → PassOracle) (i : Nat) : Bool :=
  session_at g o i || (lp_conn_init g zero_thread (o i)).1.isSome

/-! ## Sample runs -/

/-- The globals after `ldapperf -o -r names -b cn=@ -t 3 -l 7`. -/
def ordered_globals : Globals :=
  { default_globals with
    ordered := true, do_subst := true, names_file := some (str "names"),
    base_dn := some (str "cn=@" ++ [0]), num_pthreads := 3, num_loops := 7 }

/-- A file system in which `names` holds the two names `alice` and `bob`. -/
def names_fs : List Nat → Option (List Nat) := one_file (str "names") (str "alice\nbob\n")

/-- The globals after `ldapperf -b dc=example -f (uid=x) -t 2 -l 3`. -/
def plain_globals : Globals :=
  { default_globals with
    base_dn := some (str "dc=example" ++ [0]),
    filter := some (str "(uid=x)" ++ [0]), num_pthreads := 2, num_loops := 3 }

/-- An oracle under which the searches of the odd passes fail. -/
def odd_fail_oracle : RunOracle :=
  { outcome := fun _ i => { session_ok := true, bind_ok := true, rand := 0,
                            search_ok := decide (i % 2 = 0) },
    thread_before := fun _ => zero_time, thread_after := fun _ => zero_time,
    run_before := zero_time, run_after := zero_time }

/-- The globals in effect after a set-up phase that completed. -/
def setup_globals (s : Except Fault Setup) : Globals :=
  match s with
  | .ok (.ready g _) => g
  | _ => default_globals

/-- The thread array after a set-up phase that completed. -/
def setup_threads (s : Except Fault Setup) : List lp_thread_t :=
  match s with
  | .ok (.ready _ threads) => threads
  | _ => []

/-- The result of a run that reached the end of `main`. -/
def run_result (e : Except Fault MainEnd) : RunResult :=
  match e with
  | .ok (.finished res) => res
  | _ => { status := 0, stats := zero_stats, globals := default_globals, threads := [],
           traces := [] }

/-- An oracle under which the session set-up fails in pass 0 of every thread
and every other call succeeds. -/
def first_session_fails : RunOracle :=
  { outcome := fun _ i => { session_ok := decide (i ≠ 0), bind_ok := true, rand := 0,
                            search_ok := true },
    thread_before := fun _ => zero_time, thread_after := fun _ => zero_time,
    run_before := zero_time, run_after := zero_time }

/-- The array that a successful `lp_names_file` stored in `*out`. -/
def loaded_names (l : Except Fault (Int × Option (List lp_name_t))) : List lp_name_t :=
  match l with
  | .ok (_, some arr) => arr
  | _ => []

/-- The property the specification states of an ordered run: it finishes with
worker count 1 and as many loop iterations as the corpus has entries, and the
sequence of values its one worker substitutes is the corpus in file order. -/
def ordered_as_specified (g : Globals) (fs : List Nat → Option (List Nat)) (r : RunOracle) :
    Prop :=
  ∃ res arr, ∃ K : Nat, main g fs r = .ok (.finished res) ∧
    res.globals.names = some arr ∧ res.globals.names_cnt = (K : Int) ∧
    res.globals.num_pthreads = 1 ∧ res.globals.num_loops = (K : Int) ∧
    res.traces.map substituted = [arr.take K]

/-! ## Substitution: `lp_strpst` -/

theorem strchr_found (pre rest : List Nat) (c : Nat) (h0 : 0 ∉ pre) (hc : c ∉ pre) :
    strchr (pre ++ c :: rest) c = .ok (some pre.length) := by
  induction pre with
  | nil => simp [strchr]
  | cons b t ih =>
    simp only [List.mem_cons, not_or] at h0 hc
    have hb : ¬ b = c := fun h => hc.1 h.symm
    have hb0 : ¬ b = 0 := fun h => h0.1 h.symm
    simp [strchr, hb, hb0, ih h0.2 hc.2]

theorem strchr_absent (s rest : List Nat) (c : Nat) (hne : c ≠ 0) (h0 : 0 ∉ s) (hc : c ∉ s) :
    strchr (s ++ 0 :: rest) c = .ok none := by
  induction s with
  | nil => simp [strchr, hne.symm]
  | cons b t ih =>
    simp only [List.mem_cons, not_or] at h0 hc
    have hb : ¬ b = c := fun h => hc.1 h.symm
    have hb0 : ¬ b = 0 := fun h => h0.1 h.symm
    simp [strchr, hb, hb0, ih h0.2 hc.2]

theorem cstring_terminated (s rest : List Nat) (h0 : 0 ∉ s) :
    cstring (s ++ 0 :: rest) = s := by
  induction s with
  | nil => simp [cstring]
  | cons b t ih =>
    simp only [List.mem_cons, not_or] at h0
    have hb0 : ¬ b = 0 := fun h => h0.1 h.symm
    have ih2 := ih h0.2
    simp only [cstring] at ih2 ⊢
    simp only [List.cons_append, List.takeWhile, ne_eq, hb0, not_false_eq_true, decide_True]
    exact congrArg (List.cons b) ih2

theorem memcpy_segments (X Y Z S1 S2 S3 log : List Nat) (hY : Y.length = S2.length) :
    memcpy ⟨X ++ Y ++ Z, log⟩ X.length (S1 ++ S2 ++ S3) S1.length S2.length
      = .ok ⟨X ++ S2 ++ Z, log ++ List.range' X.length S2.length⟩ := by
  unfold memcpy
  have h1 : S1.length + S2.length ≤ (S1 ++ S2 ++ S3).length := by simp
  have h2 : X.length + S2.length ≤ (X ++ Y ++ Z).length := by simp; omega
  simp only [h1, h2, and_self, if_true]
  congr 2
  have e1 : (X ++ Y ++ Z).take X.length = X := by simp
  have e2 : ((S1 ++ S2 ++ S3).drop S1.length).take S2.length = S2 := by simp
  have e3 : (X ++ Y ++ Z).drop (X.length + S2.length) = Z := by
    rw [← hY, List.append_assoc, ← List.drop_drop]; simp
  rw [e1, e2, e3]

theorem split_at_length (l : List Nat) (n : Nat) (h : n ≤ l.length) :
    ∃ a b, l = a ++ b ∧ a.length = n ∧ b = l.drop n :=
  ⟨l.take n, l.drop n, (List.take_append_drop n l).symm, by simp [h], rfl⟩

theorem store_log_ranges (a b c : Nat) :
    List.range' 0 a ++ (List.range' a b ++ (List.range' (a + b) c ++ [a + b + c]))
      = List.range (a + 1 + c + b) := by
  have h1 : [a + b + c] = List.range' (a + b + c) 1 := by simp
  have e := List.range'_append_1 0 a b
  have e2 := List.range'_append_1 0 (b + a) c
  have e3 := List.range'_append_1 0 (c + (b + a)) 1
  simp only [Nat.zero_add] at e e2 e3
  rw [List.range_eq_range', h1, ← List.append_assoc, ← List.append_assoc, e,
    show a + b = b + a by omega, e2, show b + a + c = c + (b + a) by omega, e3]
  congr 1; omega

theorem store_segments (X Z log : List Nat) (y b : Nat) :
    store ⟨X ++ y :: Z, log⟩ X.length b = .ok ⟨X ++ b :: Z, log ++ [X.length]⟩ := by
  unfold store
  simp

theorem size_add_small (a b : Nat) (h : a + b < SIZE_MOD) : size_add a b = a + b := by
  unfold size_add; exact Nat.mod_eq_of_lt h

theorem size_sub_small (a b : Nat) (hb : b ≤ a) (h : a < SIZE_MOD) : size_sub a b = a - b := by
  unfold size_sub
  have hb2 : b < SIZE_MOD := lt_of_le_of_lt hb h
  rw [Nat.mod_eq_of_lt h, Nat.mod_eq_of_lt hb2]
  simp only [SIZE_MOD] at *
  omega

/-- What `lp_strpst` does on a template `pre ++ c :: post` in which the first
placeholder stands after `pre`. -/
theorem lp_strpst_found (out : OutBuf) (outlen : Nat) (pre post subst srest : List Nat) (c : Nat)
    (h0 : 0 ∉ pre) (hc : c ∉ pre)
    (hout : outlen ≤ out.mem.length) (hsz : outlen < SIZE_MOD)
    (hlen : (pre.length + 1 + post.length) + subst.length ≤ outlen) :
    lp_strpst out outlen (pre ++ c :: (post ++ [0])) (pre.length + 1 + post.length)
        (subst ++ srest) subst.length c
      = .ok (.ret_out,
          { mem := pre ++ (subst ++ (post ++ 0 ::
                    out.mem.drop (pre.length + 1 + post.length + subst.length))),
            log := out.log ++ List.range (pre.length + 1 + post.length + subst.length) }) := by
  obtain ⟨mem, log⟩ := out
  simp only at hout ⊢
  obtain ⟨m1, r1, e1, l1, -⟩ := split_at_length mem pre.length (by omega)
  obtain ⟨m2, r2, e2, l2, -⟩ := split_at_length r1 subst.length (by subst e1; simp at hout; omega)
  obtain ⟨m3, r3, e3, l3, -⟩ := split_at_length r2 post.length
    (by subst e1 e2; simp at hout; omega)
  obtain ⟨y, r4, e4⟩ : ∃ y r4, r3 = y :: r4 := by
    cases r3 with
    | nil => subst e1 e2 e3; simp at hout; omega
    | cons y r4 => exact ⟨y, r4, rfl⟩
  subst e4 e3 e2 e1
  have hdrop : (m1 ++ (m2 ++ (m3 ++ y :: r4))).drop (pre.length + 1 + post.length + subst.length)
      = r4 := by
    have : pre.length + 1 + post.length + subst.length
        = (m1 ++ (m2 ++ (m3 ++ [y]))).length := by simp; omega
    rw [this]
    have e : m1 ++ (m2 ++ (m3 ++ y :: r4)) = (m1 ++ (m2 ++ (m3 ++ [y]))) ++ r4 := by simp
    rw [e, List.drop_left]
  rw [hdrop]
  unfold lp_strpst
  have hassert : size_add (pre.length + 1 + post.length) subst.length ≤ outlen := by
    rw [size_add_small _ _ (by omega)]; exact hlen
  have hchr : strchr (pre ++ c :: (post ++ [0])) c = .ok (some pre.length) :=
    strchr_found pre _ c h0 hc
  have hend : size_sub (pre.length + 1 + post.length) (size_add pre.length 1) = post.length := by
    rw [size_add_small _ _ (by omega), size_sub_small _ _ (by omega) (by omega)]; omega
  simp only [hassert, not_true_eq_false, if_false, hchr, hend, Nat.zero_add]
  -- first copy: the bytes before the placeholder
  have c1 := memcpy_segments [] m1 (m2 ++ (m3 ++ y :: r4)) [] pre (c :: (post ++ [0])) log l1
  simp only [List.nil_append, List.length_nil] at c1
  rw [c1]
  -- second copy: the substituted name
  have c2 := memcpy_segments pre m2 (m3 ++ y :: r4) [] subst srest
    (log ++ List.range' 0 pre.length) l2
  simp only [List.nil_append, List.length_nil, List.append_assoc] at c2
  simp only [c2]
  -- third copy: the bytes after the placeholder
  have c3 := memcpy_segments (pre ++ subst) m3 (y :: r4) (pre ++ [c]) post [0]
    (log ++ (List.range' 0 pre.length ++ List.range' pre.length subst.length)) l3
  simp only [List.length_append, List.length_singleton, List.append_assoc,
    List.singleton_append, List.cons_append, List.nil_append] at c3
  simp only [c3]
  have c4 := store_segments (pre ++ subst ++ post) r4
    (log ++ (List.range' 0 pre.length ++ (List.range' pre.length subst.length
      ++ List.range' (pre.length + subst.length) post.length))) y 0
  simp only [List.length_append, List.append_assoc] at c4
  rw [Nat.add_assoc]
  simp only [c4]
  rw [← Nat.add_assoc, ← store_log_ranges pre.length subst.length post.length]

/-- Splitting a template that contains `c` at the first `c`. -/
theorem split_first (s : List Nat) (c : Nat) (h : c ∈ s) :
    s = s.takeWhile (fun b => b ≠ c) ++ c :: (s.dropWhile (fun b => b ≠ c)).drop 1
      ∧ c ∉ s.takeWhile (fun b => b ≠ c) := by
  induction s with
  | nil => simp at h
  | cons b t ih =>
    by_cases hb : b = c
    · subst hb; simp [List.takeWhile, List.dropWhile]
    · have ht : c ∈ t := by
        rcases List.mem_cons.1 h with h1 | h1
        · exact absurd h1.symm hb
        · exact h1
      obtain ⟨e1, e2⟩ := ih ht
      have hne : ¬ c = b := fun h => hb h.symm
      simp only [List.takeWhile, List.dropWhile, ne_eq, hb, not_false_eq_true, decide_True,
        List.cons_append, List.mem_cons, hne, false_or]
      exact ⟨congrArg (List.cons b) e1, e2⟩

/-- C1: for a template `s` (a string of length `inlen`), an entry `subst` and a
buffer with `inlen + subst_len <= outlen`, `lp_strpst` returns the template itself,
with no copy performed, when it holds no `'@'`, and otherwise the part before the
first `'@'`, then the entry, then everything after that first `'@'`. -/
theorem lp_strpst_replaces_first (out : OutBuf) (outlen : Nat) (s subst : List Nat)
    (hs : 0 ∉ s) (hsub : 0 ∉ subst)
    (hout : out.mem.length = outlen) (hsz : outlen < SIZE_MOD)
    (hlen : s.length + subst.length ≤ outlen) :
    ∃ r, lp_strpst out outlen (s ++ [0]) s.length (subst ++ [0]) subst.length SUBST_CHAR = .ok r ∧
      (SUBST_CHAR ∉ s → r = (.ret_in, out) ∧ returned_string (s ++ [0]) r = s) ∧
      (SUBST_CHAR ∈ s → returned_string (s ++ [0]) r =
        s.takeWhile (fun b => b ≠ SUBST_CHAR) ++ subst
          ++ (s.dropWhile (fun b => b ≠ SUBST_CHAR)).drop 1) := by
  by_cases hmem : SUBST_CHAR ∈ s
  · obtain ⟨e, hpre⟩ := split_first s SUBST_CHAR hmem
    generalize hp : s.takeWhile (fun b => b ≠ SUBST_CHAR) = pre at e hpre ⊢
    generalize hq : (s.dropWhile (fun b => b ≠ SUBST_CHAR)).drop 1 = post at e ⊢
    have h0pre : 0 ∉ pre := fun h => hs (by rw [e]; exact List.mem_append_left _ h)
    have h0post : 0 ∉ post := fun h =>
      hs (by rw [e]; exact List.mem_append_right _ (List.mem_cons_of_mem _ h))
    have hl : s.length = pre.length + 1 + post.length := by
      rw [e]; simp; omega
    have key := lp_strpst_found out outlen pre post subst [0] SUBST_CHAR h0pre hpre
      (by omega) hsz (by omega)
    have e2 : s ++ [0] = pre ++ SUBST_CHAR :: (post ++ [0]) := by rw [e]; simp
    refine ⟨_, by rw [e2, hl]; exact key, fun h => absurd hmem h, fun _ => ?_⟩
    · simp only [returned_string]
      have : pre ++ (subst ++ (post ++ 0 ::
          out.mem.drop (pre.length + 1 + post.length + subst.length)))
          = (pre ++ subst ++ post) ++ 0 ::
            out.mem.drop (pre.length + 1 + post.length + subst.length) := by simp
      rw [this]
      apply cstring_terminated
      simp only [List.mem_append, not_or]
      exact ⟨⟨h0pre, hsub⟩, h0post⟩
  · refine ⟨(.ret_in, out), ?_, fun _ => ⟨rfl, ?_⟩, fun h => absurd h hmem⟩
    · unfold lp_strpst
      have hassert : size_add s.length subst.length ≤ outlen := by
        rw [size_add_small _ _ (by omega)]; exact hlen
      have hchr := strchr_absent s [] SUBST_CHAR (by decide) hs hmem
      simp only [hassert, not_true_eq_false, if_false, hchr]
    · simp only [returned_string]
      exact cstring_terminated s [] hs

/-- The concrete case of C1 named by the specification: template `dc=@,dc=com`
with entry `example` gives `dc=example,dc=com`. -/
theorem lp_strpst_replaces_first_witness :
    ∃ r, lp_strpst (malloc_buf 18) 18 (str "dc=@,dc=com" ++ [0]) 11
          (str "example" ++ [0]) 7 SUBST_CHAR = .ok r ∧
      returned_string (str "dc=@,dc=com" ++ [0]) r = str "dc=example,dc=com" := by
  obtain ⟨r, h1, -, h3⟩ := lp_strpst_replaces_first (malloc_buf 18) 18 (str "dc=@,dc=com")
    (str "example") (by decide) (by decide) (by decide) (by decide) (by decide)
  exact ⟨r, h1, (h3 (by decide)).trans (by decide)⟩

/-- C10: when `lp_strpst` finds the placeholder in a template of true length
`inlen`, it stores to exactly the offsets `0 .. inlen + subst_len - 1` of `out`
(the bytes before the placeholder, the entry, the bytes after it and the
terminating NUL), every one of them below `outlen`; the terminator lands on
offset `inlen + subst_len - 1` and the rest of the buffer is untouched. -/
theorem lp_strpst_stores_in_bounds (out : OutBuf) (outlen : Nat) (s subst : List Nat)
    (hs : 0 ∉ s) (hfound : SUBST_CHAR ∈ s)
    (hout : out.mem.length = outlen) (hsz : outlen < SIZE_MOD)
    (hlen : s.length + subst.length ≤ outlen) :
    ∃ out', lp_strpst out outlen (s ++ [0]) s.length (subst ++ [0]) subst.length SUBST_CHAR
        = .ok (.ret_out, out') ∧
      out'.log = out.log ++ List.range (s.length + subst.length) ∧
      (out'.log.drop out.log.length).length = s.length + subst.length ∧
      (∀ i ∈ out'.log.drop out.log.length, i < outlen) ∧
      out'.mem.length = outlen ∧
      out'.mem.take (s.length + subst.length)
        = s.takeWhile (fun b => b ≠ SUBST_CHAR) ++ subst
            ++ (s.dropWhile (fun b => b ≠ SUBST_CHAR)).drop 1 ++ [0] ∧
      out'.mem.drop (s.length + subst.length) = out.mem.drop (s.length + subst.length) := by
  obtain ⟨e, hpre⟩ := split_first s SUBST_CHAR hfound
  generalize hp : s.takeWhile (fun b => b ≠ SUBST_CHAR) = pre at e hpre ⊢
  generalize hq : (s.dropWhile (fun b => b ≠ SUBST_CHAR)).drop 1 = post at e ⊢
  have h0pre : 0 ∉ pre := fun h => hs (by rw [e]; exact List.mem_append_left _ h)
  have hl : s.length = pre.length + 1 + post.length := by
    rw [e]; simp; omega
  have key := lp_strpst_found out outlen pre post subst [0] SUBST_CHAR h0pre hpre
    (by omega) hsz (by omega)
  have e2 : s ++ [0] = pre ++ SUBST_CHAR :: (post ++ [0]) := by rw [e]; simp
  have hlen4 : (pre ++ subst ++ post ++ [0]).length = pre.length + 1 + post.length + subst.length := by
    simp; omega
  have hmem : pre ++ (subst ++ (post ++ 0 ::
      out.mem.drop (pre.length + 1 + post.length + subst.length)))
      = (pre ++ subst ++ post ++ [0]) ++
        out.mem.drop (pre.length + 1 + post.length + subst.length) := by simp
  refine ⟨_, by rw [e2, hl]; exact key, ?_, ?_, ?_, ?_, ?_, ?_⟩
  · simp only [hl]
  · simp
    omega
  · intro i hi
    simp only [List.drop_left, List.mem_range] at hi
    omega
  · simp only [hmem, List.length_append, hlen4, List.length_drop]
    omega
  · simp only []
    rw [hl, hmem, ← hlen4, List.take_left]
  · simp only []
    rw [hl, hmem, ← hlen4, List.drop_left]

/-- An instance of C10 with no spare byte: template `dc=@,dc=com` (11 bytes) and
entry `example` (7 bytes) in a buffer of exactly 18 bytes. -/
theorem lp_strpst_stores_in_bounds_witness :
    ∃ out', lp_strpst (malloc_buf 18) 18 (str "dc=@,dc=com" ++ [0]) 11
          (str "example" ++ [0]) 7 SUBST_CHAR = .ok (.ret_out, out') ∧
      out'.log = List.range 18 ∧ out'.mem = str "dc=example,dc=com" ++ [0] := by
  obtain ⟨o, h1, h2, -, -, h5, h6, -⟩ := lp_strpst_stores_in_bounds (malloc_buf 18) 18
    (str "dc=@,dc=com") (str "example") (by decide) (by decide) (by decide) (by decide)
    (by decide)
  refine ⟨o, h1, h2, ?_⟩
  have h7 : o.mem.take 18 = o.mem := List.take_of_length_le (le_of_eq h5)
  rw [← h7]
  exact h6.trans (by decide)

/-! ## The worker loop -/

theorem incr64_le (x : Nat) : incr64 x ≤ x + 1 := Nat.mod_le _ _

theorem add64_le (x y : Nat) : add64 x y ≤ x + y := Nat.mod_le _ _

theorem lp_conn_init_open (g : Globals) (t : lp_thread_t) (o : PassOracle) :
    (lp_conn_init g t o).1.isSome = opens_and_binds g o := by
  unfold lp_conn_init opens_and_binds
  cases hs : o.session_ok <;> cases hb : o.bind_ok <;>
    cases h1 : g.bind_dn.isSome <;> cases h2 : g.password.isSome <;> simp

theorem lp_conn_init_thread (g : Globals) (t : lp_thread_t) (o : PassOracle) :
    ((lp_conn_init g t o).1.isSome → (lp_conn_init g t o).2 = t) ∧
    total (lp_conn_init g t o).2.stats ≤ total t.stats + 1 ∧
    (lp_conn_init g t o).2.base_dn = t.base_dn ∧
    (lp_conn_init g t o).2.base_dn_len = t.base_dn_len ∧
    (lp_conn_init g t o).2.filter = t.filter ∧
    (lp_conn_init g t o).2.filter_len = t.filter_len := by
  unfold lp_conn_init total
  have h1 := incr64_le t.stats.error_session_init
  have h2 := incr64_le t.stats.error_bind_fail
  cases hs : o.session_ok <;> cases hb : o.bind_ok <;>
    cases h1 : g.bind_dn.isSome <;> cases h2 : g.password.isSome <;> simp <;> omega

theorem perform_substitutions_stats (g : Globals) (t : lp_thread_t) (base_dn : List Nat)
    (subst : Option lp_name_t) (r : lp_thread_t × List Nat × Option (List Nat))
    (h : perform_substitutions g t base_dn subst = .ok r) :
    r.1.stats = t.stats ∧ r.1.base_dn_len = t.base_dn_len ∧ r.1.filter_len = t.filter_len := by
  unfold perform_substitutions at h
  split at h
  · injection h with h; subst h; simp
  · split at h
    · split at h
      · exact absurd h (by simp)
      · injection h with h; subst h; simp
    · split at h
      · exact absurd h (by simp)
      · split at h
        · exact absurd h (by simp)
        · injection h with h; subst h; simp

theorem lp_query_perform_ok (g : Globals) (t : lp_thread_t) (subst : Option lp_name_t)
    (o : PassOracle) (q : QueryResult) (h : lp_query_perform g t subst o = .ok q) :
    total q.thread.stats ≤ total t.stats + 1 ∧
    (q.rc < 0 ↔ o.search_ok = false) ∧ (q.rc = 0 ↔ o.search_ok = true) ∧
    q.thread.base_dn_len = t.base_dn_len ∧ q.thread.filter_len = t.filter_len := by
  unfold lp_query_perform at h
  split at h
  · exact absurd h (by simp)
  · split at h
    · exact absurd h (by simp)
    · rename_i _ base_dn _ _ thread2 base_dn_p filter_p hr
      obtain ⟨hs, hb, hf⟩ := perform_substitutions_stats g t base_dn subst _ hr
      simp only at hs hb hf
      have h1 := incr64_le thread2.stats.error_search_fail
      have h2 := incr64_le thread2.stats.successful
      cases hso : o.search_ok <;> simp only [hso] at h <;>
        injection h with h <;> subst h <;> simp [total, ← hs, hb, hf] <;> omega

theorem ensure_conn_ld (g : Globals) (o : PassOracle) (w : Worker) :
    (ensure_conn g o w).ld.isSome = (w.ld.isSome || opens_and_binds g o) := by
  unfold ensure_conn
  cases h : w.ld with
  | none => simp [lp_conn_init_open]
  | some l => simp [h]

theorem ensure_conn_thread (g : Globals) (o : PassOracle) (w : Worker) :
    ((ensure_conn g o w).ld.isSome → (ensure_conn g o w).thread = w.thread) ∧
    total (ensure_conn g o w).thread.stats ≤ total w.thread.stats + 1 ∧
    (ensure_conn g o w).thread.base_dn_len = w.thread.base_dn_len ∧
    (ensure_conn g o w).thread.filter_len = w.thread.filter_len := by
  unfold ensure_conn
  cases h : w.ld with
  | none =>
    obtain ⟨h1, h2, -, h4, -, h6⟩ := lp_conn_init_thread g w.thread o
    exact ⟨h1, h2, h4, h6⟩
  | some l => simp

theorem ensure_conn_trace (g : Globals) (o : PassOracle) (w : Worker) :
    (ensure_conn g o w).trace
      = w.trace ++ (if w.ld.isSome then [] else [Event.conn_init]) := by
  unfold ensure_conn
  cases h : w.ld with
  | none => simp
  | some l => simp

/-- Everything one successful pass of the worker loop does to the worker. -/
theorem pass_ok (g : Globals) (o : PassOracle) (i : Nat) (w w1 : Worker)
    (h : pass g o i w = .ok w1) :
    (w1.ld.isSome = ((w.ld.isSome || opens_and_binds g o) && o.search_ok && !g.rebind)) ∧
    total w1.thread.stats ≤ total w.thread.stats + 1 ∧
    init_calls w1.trace = init_calls w.trace + (if w.ld.isSome then 0 else 1) ∧
    ((w.ld.isSome || opens_and_binds g o) = false → substituted w1.trace = substituted w.trace) ∧
    ((w.ld.isSome || opens_and_binds g o) = true → ∃ s, choose_subst g i o = .ok s ∧
      substituted w1.trace = substituted w.trace ++ s.toList) ∧
    (∀ j s b f k, Event.search j s b f k ∈ w1.trace →
      Event.search j s b f k ∈ w.trace ∨ (j = i ∧ choose_subst g i o = .ok s)) := by
  have hld := ensure_conn_ld g o w
  obtain ⟨hth, htot, -, -⟩ := ensure_conn_thread g o w
  have htr := ensure_conn_trace g o w
  unfold pass at h
  split at h
  · rename_i hnone
    injection h with h
    subst h
    rw [hnone] at hld
    simp only [Option.isSome_none] at hld
    refine ⟨?_, htot, ?_, ?_, ?_, ?_⟩
    · rw [hnone, ← hld]; simp
    · rw [htr]
      cases hw : w.ld.isSome <;> simp [init_calls, hw]
    · intro _
      rw [htr]
      cases hw : w.ld.isSome <;> simp [substituted, hw]
    · intro hc; rw [hc] at hld; exact absurd hld (by simp)
    · intro j s b f k hm
      rw [htr] at hm
      cases hw : w.ld.isSome <;> simp [hw] at hm <;> exact Or.inl hm
  · rename_i l hsome
    rw [hsome] at hld hth
    simp only [Option.isSome_some] at hld
    have hth2 := hth rfl
    split at h
    · exact absurd h (by simp)
    · rename_i subst hch
      split at h
      · exact absurd h (by simp)
      · rename_i q hq
        rw [hth2] at hq
        obtain ⟨hq1, hq2, hq3, -, -⟩ := lp_query_perform_ok g w.thread subst o q hq
        simp only [hsome, lp_conn_close] at h
        have hinit : ∀ extra : List Event, Event.conn_init ∉ extra →
            init_calls (w.trace ++ (if w.ld.isSome then [] else [Event.conn_init])
                ++ [Event.search i subst q.base_dn_p q.filter_p (decide (q.rc = 0))] ++ extra)
              = init_calls w.trace + (if w.ld.isSome then 0 else 1) := by
          intro extra hex
          have : List.count Event.conn_init extra = 0 := List.count_eq_zero.2 hex
          cases hw : w.ld.isSome <;> simp [init_calls, hw, this]
        have hsub : ∀ tail : List Event, substituted tail = [] →
            substituted (w.trace ++ (if w.ld.isSome then [] else [Event.conn_init])
                ++ [Event.search i subst q.base_dn_p q.filter_p (decide (q.rc = 0))] ++ tail)
              = substituted w.trace ++ subst.toList := by
          intro tail ht
          unfold substituted at ht ⊢
          cases hw : w.ld.isSome <;> cases subst <;> simp [hw, ht]
        have hmem : ∀ tail : List Event, (∀ j s b f k, Event.search j s b f k ∉ tail) →
            ∀ j s b f k, Event.search j s b f k ∈
              (w.trace ++ (if w.ld.isSome then [] else [Event.conn_init])
                ++ [Event.search i subst q.base_dn_p q.filter_p (decide (q.rc = 0))] ++ tail) →
            Event.search j s b f k ∈ w.trace ∨ (j = i ∧ choose_subst g i o = .ok s) := by
          intro tail ht j s b f k hm
          simp only [List.mem_append, List.mem_singleton] at hm
          rcases hm with ((hm | hm) | hm) | hm
          · exact Or.inl hm
          · cases hw : w.ld.isSome <;> simp [hw] at hm
          · injection hm with e1 e2
            exact Or.inr ⟨e1, by rw [e2]; exact hch⟩
          · exact absurd hm (ht j s b f k)
        by_cases hrc : q.rc < 0
        · have hso : o.search_ok = false := hq2.1 hrc
          simp only [hrc, if_true] at h
          injection h with h
          subst h
          refine ⟨by simp [hso], hq1, ?_, ?_, ?_, ?_⟩
          · simp only [htr]
            apply hinit
            simp
          · intro hc; rw [hc] at hld; exact absurd hld (by simp)
          · intro _
            refine ⟨subst, hch, ?_⟩
            simp only [htr]
            apply hsub
            simp [substituted]
          · simp only [htr]
            apply hmem
            simp
        · have hso : o.search_ok = true := by
            cases hc : o.search_ok
            · exact absurd (hq2.2 hc) hrc
            · rfl
          simp only [hrc, if_false] at h
          by_cases hreb : g.rebind = true
          · simp only [hreb, if_true] at h
            injection h with h
            subst h
            refine ⟨by simp [hreb], hq1, ?_, ?_, ?_, ?_⟩
            · simp only [htr]
              apply hinit
              simp
            · intro hc; rw [hc] at hld; exact absurd hld (by simp)
            · intro _
              refine ⟨subst, hch, ?_⟩
              simp only [htr]
              apply hsub
              simp [substituted]
            · simp only [htr]
              apply hmem
              simp
          · simp only [hreb] at h
            injection h with h
            subst h
            have hreb2 : g.rebind = false := by
              cases hc : g.rebind
              · rfl
              · exact absurd hc hreb
            refine ⟨by simp [← hld, hso, hreb2], hq1, ?_, ?_, ?_, ?_⟩
            · simp only [htr]
              have := hinit [] (by simp)
              simpa using this
            · intro hc; rw [hc] at hld; exact absurd hld (by simp)
            · intro _
              refine ⟨subst, hch, ?_⟩
              simp only [htr]
              have := hsub [] rfl
              simpa using this
            · simp only [htr]
              have := hmem [] (by simp)
              simpa using this

theorem passes_succ (g : Globals) (o : Nat → PassOracle) (n : Nat) (w w1 : Worker)
    (h : passes g o (n + 1) w = .ok w1) :
    ∃ wn, passes g o n w = .ok wn ∧ pass g (o n) n wn = .ok w1 := by
  simp only [passes] at h
  split at h
  · exact absurd h (by simp)
  · rename_i wn hn
    exact ⟨wn, hn, h⟩

theorem passes_total (g : Globals) (o : Nat → PassOracle) (n : Nat) (w w1 : Worker)
    (h : passes g o n w = .ok w1) :
    total w1.thread.stats ≤ total w.thread.stats + n := by
  induction n generalizing w1 with
  | zero =>
    simp only [passes] at h
    injection h with h
    subst h
    omega
  | succ n ih =>
    obtain ⟨wn, hn, hp⟩ := passes_succ g o n w w1 h
    have h1 := ih wn hn
    have h2 := (pass_ok g (o n) n wn w1 hp).2.1
    omega

theorem passes_rebind (g : Globals) (o : Nat → PassOracle) (hreb : g.rebind = true)
    (n : Nat) (w w1 : Worker) (hw : w.ld = none) (h : passes g o n w = .ok w1) :
    w1.ld = none ∧ init_calls w1.trace = init_calls w.trace + n := by
  induction n generalizing w1 with
  | zero =>
    simp only [passes] at h
    injection h with h
    subst h
    exact ⟨hw, rfl⟩
  | succ n ih =>
    obtain ⟨wn, hn, hp⟩ := passes_succ g o n w w1 h
    obtain ⟨h1, h2⟩ := ih wn hn
    obtain ⟨p1, -, p3, -⟩ := pass_ok g (o n) n wn w1 hp
    constructor
    · have : w1.ld.isSome = false := by rw [p1, hreb]; simp
      cases hc : w1.ld with
      | none => rfl
      | some l => rw [hc] at this; exact absurd this (by simp)
    · rw [p3, h2, h1]
      simp
      omega

theorem lp_query_perform_plain (g : Globals) (t : lp_thread_t) (o : PassOracle)
    (base_dn : List Nat) (hb : g.base_dn = some base_dn) :
    ∃ q, lp_query_perform g t none o = .ok q := by
  unfold lp_query_perform perform_substitutions
  simp only [hb]
  cases o.search_ok <;> simp

theorem pass_plain (g : Globals) (o : PassOracle) (i : Nat) (w : Worker)
    (hs : g.do_subst = false) (base_dn : List Nat) (hb : g.base_dn = some base_dn) :
    ∃ w1, pass g o i w = .ok w1 := by
  unfold pass
  split
  · exact ⟨_, rfl⟩
  · have hc : choose_subst g i o = .ok none := by simp [choose_subst, hs]
    obtain ⟨q, hq⟩ := lp_query_perform_plain g (ensure_conn g o w).thread o base_dn hb
    simp only [hc, hq]
    split
    · exact ⟨_, rfl⟩
    · split <;> exact ⟨_, rfl⟩

theorem passes_plain (g : Globals) (o : Nat → PassOracle) (n : Nat) (w : Worker)
    (hs : g.do_subst = false) (base_dn : List Nat) (hb : g.base_dn = some base_dn) :
    ∃ w1, passes g o n w = .ok w1 := by
  induction n with
  | zero => exact ⟨w, rfl⟩
  | succ n ih =>
    obtain ⟨wn, hn⟩ := ih
    obtain ⟨w1, h1⟩ := pass_plain g (o n) n wn hs base_dn hb
    exact ⟨w1, by simp only [passes, hn]; exact h1⟩

theorem enter_thread_ok (g : Globals) (o : Nat → PassOracle) (t0 t1 : timeval)
    (thread : lp_thread_t) (w : Worker) (h : enter_thread g o t0 t1 thread = .ok w) :
    ∃ wn, passes g o g.num_loops.toNat (worker_start thread t0) = .ok wn ∧
      w = worker_finish wn t1 := by
  unfold enter_thread at h
  split at h
  · exact absurd h (by simp)
  · rename_i wn hn
    injection h with h
    exact ⟨wn, hn, h.symm⟩

theorem lp_conn_close_closed (ld : Option LDAP) : (lp_conn_close ld).1 = none := by
  cases ld <;> rfl

/-- C9: the worker loop as a state machine over {session closed, session open}.
At the start of pass `n + 1` the session is open exactly when pass `n` held an
open session (already open, or opened and bound by `lp_conn_init`), its search
succeeded and rebind-every-search is not set; so a failed open, bind or search
leaves the session closed.  With rebind set every pass starts closed and calls
`lp_conn_init` once.  After the loop the session is closed, and closing a closed
session does nothing.  Without substitution the loop never faults. -/
theorem worker_session_state_machine (g : Globals) (o : Nat → PassOracle) :
    (∀ n w0 w w1, passes g o n w0 = .ok w → passes g o (n + 1) w0 = .ok w1 →
      (w1.ld.isSome = true ↔
        (w.ld.isSome = true ∨ (lp_conn_init g w.thread (o n)).1.isSome = true) ∧
          (o n).search_ok = true ∧ g.rebind = false)) ∧
    (∀ n w0 w w1, passes g o n w0 = .ok w → passes g o (n + 1) w0 = .ok w1 →
      ((w.ld = none ∧ (lp_conn_init g w.thread (o n)).1 = none) ∨ (o n).search_ok = false) →
      w1.ld = none) ∧
    (g.rebind = true → ∀ n w0 w w1, w0.ld = none → w0.trace = [] →
      passes g o n w0 = .ok w → passes g o (n + 1) w0 = .ok w1 →
      w.ld = none ∧ init_calls w.trace = n ∧ init_calls w1.trace = n + 1) ∧
    (∀ t0 t1 thread w, enter_thread g o t0 t1 thread = .ok w → w.ld = none) ∧
    lp_conn_close none = (none, []) ∧
    (g.do_subst = false → g.base_dn.isSome = true →
      ∀ n w0, ∃ w, passes g o n w0 = .ok w) := by
  have step : ∀ n w0 w w1, passes g o n w0 = .ok w → passes g o (n + 1) w0 = .ok w1 →
      w1.ld.isSome = ((w.ld.isSome || (lp_conn_init g w.thread (o n)).1.isSome)
        && (o n).search_ok && !g.rebind) := by
    intro n w0 w w1 hn hn1
    obtain ⟨wn, hn2, hp⟩ := passes_succ g o n w0 w1 hn1
    rw [hn] at hn2
    injection hn2 with hn2
    subst hn2
    rw [lp_conn_init_open]
    exact (pass_ok g (o n) n w w1 hp).1
  refine ⟨?_, ?_, ?_, ?_, rfl, ?_⟩
  · intro n w0 w w1 hn hn1
    rw [step n w0 w w1 hn hn1]
    simp [and_assoc]
  · intro n w0 w w1 hn hn1 hfail
    have hs := step n w0 w w1 hn hn1
    have : w1.ld.isSome = false := by
      rw [hs]
      rcases hfail with ⟨h1, h2⟩ | h3
      · simp [h1, h2]
      · simp [h3]
    cases hc : w1.ld with
    | none => rfl
    | some l => rw [hc] at this; exact absurd this (by simp)
  · intro hreb n w0 w w1 hld htr hn hn1
    obtain ⟨a1, a2⟩ := passes_rebind g o hreb n w0 w hld hn
    obtain ⟨-, b2⟩ := passes_rebind g o hreb (n + 1) w0 w1 hld hn1
    rw [htr] at a2 b2
    simp only [init_calls, List.count_nil, Nat.zero_add] at a2 b2
    exact ⟨a1, a2, b2⟩
  · intro t0 t1 thread w h
    obtain ⟨wn, -, hw⟩ := enter_thread_ok g o t0 t1 thread w h
    rw [hw]
    exact lp_conn_close_closed wn.ld
  · intro hs hb n w0
    cases hbd : g.base_dn with
    | none => rw [hbd] at hb; exact absurd hb (by simp)
    | some base_dn => exact passes_plain g o n w0 hs base_dn hbd

/-! ## The run controller -/

theorem enter_thread_total (g : Globals) (o : Nat → PassOracle) (t0 t1 : timeval)
    (thread : lp_thread_t) (w : Worker) (h : enter_thread g o t0 t1 thread = .ok w) :
    total w.thread.stats ≤ total thread.stats + g.num_loops.toNat := by
  obtain ⟨wn, hn, hw⟩ := enter_thread_ok g o t0 t1 thread w h
  have := passes_total g o _ _ wn hn
  rw [hw]
  simpa [worker_finish, worker_start, total] using this

theorem main_spawn_ok (g : Globals) (r : RunOracle) (threads : List lp_thread_t)
    (hz : ∀ t ∈ threads, total t.stats = 0) (n : Nat)
    (ths : List lp_thread_t) (traces : List (List Event))
    (h : main_spawn g r n threads = .ok (ths, traces)) :
    ths.length = threads.length ∧ n ≤ threads.length ∧
    (∀ i t, ths.get? i = some t → n ≤ i → threads.get? i = some t) ∧
    (∀ t ∈ ths, total t.stats ≤ g.num_loops.toNat) := by
  induction n generalizing ths traces with
  | zero =>
    simp only [main_spawn] at h
    injection h with h
    injection h with h1 h2
    subst h1
    refine ⟨rfl, Nat.zero_le _, fun i t ht _ => ht, ?_⟩
    intro t ht
    rw [hz t ht]
    exact Nat.zero_le _
  | succ n ih =>
    simp only [main_spawn] at h
    split at h
    · exact absurd h (by simp)
    · rename_i ths0 traces0 h0
      obtain ⟨i1, i2, i3, i4⟩ := ih ths0 traces0 h0
      split at h
      · exact absurd h (by simp)
      · rename_i t hget
        split at h
        · exact absurd h (by simp)
        · rename_i w hw
          injection h with h
          injection h with h1 h2
          subst h1
          have hlt : n < ths0.length := by
            rcases Nat.lt_or_ge n ths0.length with hl | hl
            · exact hl
            · rw [List.get?_eq_none.2 hl] at hget
              exact absurd hget (by simp)
          have ht0 : total t.stats = 0 := by
            have := i3 n t hget (Nat.le_refl _)
            exact hz t (List.get?_mem this)
          have hwt := enter_thread_total g _ _ _ _ w hw
          simp only [ht0, Nat.zero_add] at hwt
          refine ⟨by simp [i1], by omega, ?_, ?_⟩
          · intro i t2 hi hn
            have hne : n ≠ i := by omega
            rw [List.get?_eq_getElem?, List.getElem?_set_ne hne, ← List.get?_eq_getElem?] at hi
            exact i3 i t2 hi (by omega)
          · intro t2 ht2
            rcases List.mem_or_eq_of_mem_set ht2 with hm | hm
            · exact i4 t2 hm
            · rw [hm]; exact hwt

theorem foldl_add64_le (l : List Nat) (x : Nat) : l.foldl add64 x ≤ x + l.sum := by
  induction l generalizing x with
  | nil => simp
  | cons a t ih =>
    simp only [List.foldl_cons, List.sum_cons]
    have h1 := ih (add64 x a)
    have h2 := add64_le x a
    omega

theorem foldl_add64_exact (l : List Nat) (x : Nat) (h : x + l.sum < SIZE_MOD) :
    l.foldl add64 x = x + l.sum := by
  induction l generalizing x with
  | nil => simp
  | cons a t ih =>
    simp only [List.foldl_cons, List.sum_cons] at h ⊢
    have e : add64 x a = x + a := Nat.mod_eq_of_lt (by omega)
    rw [e, ih (x + a) (by omega)]
    omega

theorem take_succ_of_get (l : List lp_thread_t) (n : Nat) (t : lp_thread_t)
    (h : l.get? n = some t) : l.take (n + 1) = l.take n ++ [t] := by
  rw [List.take_succ, ← List.get?_eq_getElem?, h]
  rfl

/-- The join loop folds each counter of the first `n` threads into the total
for that counter, and reads no other field for it. -/
theorem main_join_fold (threads : List lp_thread_t) (s : lp_stats_t) (n : Nat) (a : lp_stats_t)
    (h : main_join threads s n = .ok a) :
    n ≤ threads.length ∧
    a.successful = ((threads.take n).map (fun t => t.stats.successful)).foldl add64 s.successful ∧
    a.error_session_init = ((threads.take n).map (fun t => t.stats.error_session_init)).foldl
      add64 s.error_session_init ∧
    a.error_bind_fail = ((threads.take n).map (fun t => t.stats.error_bind_fail)).foldl
      add64 s.error_bind_fail ∧
    a.error_search_fail = ((threads.take n).map (fun t => t.stats.error_search_fail)).foldl
      add64 s.error_search_fail := by
  induction n generalizing a with
  | zero =>
    simp only [main_join] at h
    injection h with h
    subst h
    simp
  | succ n ih =>
    simp only [main_join] at h
    split at h
    · exact absurd h (by simp)
    · rename_i s1 h1
      obtain ⟨i0, i1, i2, i3, i4⟩ := ih s1 h1
      split at h
      · exact absurd h (by simp)
      · rename_i t hget
        injection h with h
        subst h
        have hlt : n < threads.length := by
          rcases Nat.lt_or_ge n threads.length with hl | hl
          · exact hl
          · rw [List.get?_eq_none.2 hl] at hget
            exact absurd hget (by simp)
        rw [take_succ_of_get threads n t hget]
        simp only [List.map_append, List.map_cons, List.map_nil, List.foldl_append,
          List.foldl_cons, List.foldl_nil, stats_add]
        exact ⟨hlt, by rw [i1], by rw [i2], by rw [i3], by rw [i4]⟩

theorem sum_map_le (l : List lp_thread_t) (f : lp_thread_t → Nat) (b : Nat)
    (h : ∀ t ∈ l, f t ≤ b) : (l.map f).sum ≤ l.length * b := by
  induction l with
  | nil => simp
  | cons a t ih =>
    simp only [List.map_cons, List.sum_cons, List.length_cons]
    have h1 := h a (List.mem_cons_self _ _)
    have h2 := ih (fun x hx => h x (List.mem_cons_of_mem _ hx))
    rw [Nat.succ_mul]
    omega

theorem sum_map_add (l : List lp_thread_t) (f k : lp_thread_t → Nat) :
    (l.map (fun t => f t + k t)).sum = (l.map f).sum + (l.map k).sum := by
  induction l with
  | nil => simp
  | cons a t ih =>
    simp only [List.map_cons, List.sum_cons, ih]
    omega

theorem names_body_idx (st st1 : NamesState) (buffer : List Nat)
    (h : names_body st buffer = .ok st1) (hi : (st.idx : Int) ≤ INT_MAX) :
    (st1.idx : Int) ≤ INT_MAX := by
  unfold names_body at h
  simp only at h
  split at h
  · injection h with h; subst h; exact hi
  · split at h
    · injection h with h; subst h; exact hi
    · split at h
      · exact absurd h (by simp)
      · split at h
        · exact absurd h (by simp)
        · split at h
          · split at h
            · exact absurd h (by simp)
            · rename_i hov
              injection h with h
              subst h
              simp only [INT_MAX] at hov ⊢
              push_cast
              omega
          · exact absurd h (by simp)

theorem names_loop_idx (fuel : Nat) (stream : List Nat) (st st1 : NamesState)
    (h : names_loop fuel stream st = .ok st1) (hi : (st.idx : Int) ≤ INT_MAX) :
    (st1.idx : Int) ≤ INT_MAX := by
  induction fuel generalizing stream st with
  | zero => simp [names_loop] at h
  | succ fuel ih =>
    simp only [names_loop] at h
    split at h
    · injection h with h; subst h; exact hi
    · split at h
      · exact absurd h (by simp)
      · rename_i st2 h2
        exact ih _ st2 h (names_body_idx st st2 _ h2 hi)

theorem lp_names_file_ok (file : Option (List Nat)) (cnt : Int)
    (out : Option (List lp_name_t)) (h : lp_names_file file = .ok (cnt, out))
    (hc : ¬ cnt < 0) :
    0 ≤ cnt ∧ cnt ≤ INT_MAX ∧ ∃ arr, out = some arr ∧ cnt.toNat < arr.length := by
  unfold lp_names_file at h
  split at h
  · injection h with h
    injection h with h1 h2
    subst h1
    exact absurd (by decide) hc
  · split at h
    · exact absurd h (by simp)
    · rename_i st hst
      split at h
      · exact absurd h (by simp)
      · rename_i arr harr
        split at h
        · rename_i hlt
          injection h with h
          injection h with h1 h2
          subst h1 h2
          have hb := names_loop_idx _ _ _ st hst (by simp [INT_MAX])
          refine ⟨by omega, hb, _, rfl, ?_⟩
          simpa using hlt
        · exact absurd h (by simp)

theorem alloc_buffers_ok (g : Globals) (ts ts1 : List lp_thread_t)
    (h : alloc_buffers g ts = .ok ts1) :
    ts1.length = ts.length ∧
    ((∀ t ∈ ts, t.stats = zero_stats) → ∀ t ∈ ts1, t.stats = zero_stats) := by
  induction ts generalizing ts1 with
  | nil =>
    simp only [alloc_buffers] at h
    injection h with h
    subst h
    simp
  | cons t ts ih =>
    simp only [alloc_buffers] at h
    split at h
    · exact absurd h (by simp)
    · split at h
      · exact absurd h (by simp)
      · split at h
        · exact absurd h (by simp)
        · rename_i ts2 h2
          injection h with h
          subst h
          obtain ⟨i1, i2⟩ := ih ts2 h2
          refine ⟨by simp [i1], ?_⟩
          intro hz t2 ht2
          rcases List.mem_cons.1 ht2 with hm | hm
          · rw [hm]; exact hz t (List.mem_cons_self _ _)
          · exact i2 (fun x hx => hz x (List.mem_cons_of_mem _ hx)) t2 hm

theorem load_names_ok (g g1 : Globals) (fs : List Nat → Option (List Nat))
    (h : load_names g fs = .ok (some g1)) :
    g1.ordered = g.ordered ∧ g1.num_loops = g.num_loops ∧ g1.num_pthreads = g.num_pthreads ∧
    g1.rebind = g.rebind ∧ g1.do_subst = g.do_subst ∧
    ((g.names_file = none ∧ g1 = g) ∨
      (∃ path arr, g.names_file = some path ∧
        lp_names_file (fs path) = .ok (g1.names_cnt, some arr) ∧ g1.names = some arr ∧
        0 ≤ g1.names_cnt ∧ g1.names_cnt ≤ INT_MAX ∧ g1.names_cnt.toNat < arr.length)) := by
  unfold load_names at h
  split at h
  · rename_i hnf
    injection h with h
    injection h with h
    subst h
    exact ⟨rfl, rfl, rfl, rfl, rfl, Or.inl ⟨hnf, rfl⟩⟩
  · rename_i path hnf
    split at h
    · exact absurd h (by simp)
    · rename_i cnt out hl
      split at h
      · exact absurd h (by simp)
      · rename_i hc
        injection h with h
        injection h with h
        subst h
        obtain ⟨c1, c2, arr, c3, c4⟩ := lp_names_file_ok _ cnt out hl hc
        subst c3
        exact ⟨rfl, rfl, rfl, rfl, rfl, Or.inr ⟨path, arr, hnf, hl, rfl, c1, c2, c4⟩⟩

/-- What a completed set-up phase of `main` guarantees. -/
theorem main_setup_ready (g g1 : Globals) (fs : List Nat → Option (List Nat))
    (threads : List lp_thread_t) (h : main_setup g fs = .ok (.ready g1 threads)) :
    0 ≤ g.num_pthreads ∧ threads.length = g.num_pthreads.toNat ∧
    (∀ t ∈ threads, t.stats = zero_stats) ∧
    ∃ g0, g1 = apply_ordered g0 ∧ g0.ordered = g.ordered ∧ g0.num_loops = g.num_loops ∧
      g0.num_pthreads = g.num_pthreads ∧ g0.rebind = g.rebind ∧ g0.do_subst = g.do_subst ∧
      (g.ordered = true → g.do_subst = true) ∧
      (g.do_subst = false → g0 = g) ∧
      (g.do_subst = true → g.names_file = none → g0 = set_template_lengths g) ∧
      (g.do_subst = true → ∀ path, g.names_file = some path →
        ∃ arr, lp_names_file (fs path) = .ok (g0.names_cnt, some arr) ∧ g0.names = some arr ∧
          0 ≤ g0.names_cnt ∧ g0.names_cnt ≤ INT_MAX ∧ g0.names_cnt.toNat < arr.length) := by
  unfold main_setup at h
  split at h
  · exact absurd h (by simp)
  · exact absurd h (by simp)
  · rename_i hrej
    split at h
    · exact absurd h (by simp)
    · rename_i hneg
      split at h
      · exact absurd h (by simp)
      · exact absurd h (by simp)
      · rename_i g0 threads0 hal
        injection h with h
        injection h with h1 h2
        subst h1 h2
        have hord : g.ordered = true → g.do_subst = true := by
          intro ho
          unfold config_rejected at hrej
          split at hrej
          · exact absurd hrej (by simp)
          · cases hd : g.do_subst with
            | true => rfl
            | false => simp [ho, hd] at hrej
        have hzero : ∀ t ∈ List.replicate g.num_pthreads.toNat zero_thread,
            t.stats = zero_stats := by
          intro t ht
          rw [List.eq_of_mem_replicate ht]
          rfl
        refine ⟨by omega, ?_⟩
        unfold main_allocate at hal
        split at hal
        · rename_i hds
          split at hal
          · exact absurd hal (by simp)
          · exact absurd hal (by simp)
          · rename_i gl hload
            split at hal
            · exact absurd hal (by simp)
            · rename_i ths hab
              injection hal with hal
              injection hal with hal
              injection hal with e1 e2
              subst e1 e2
              obtain ⟨a1, a2⟩ := alloc_buffers_ok _ _ _ hab
              obtain ⟨l1, l2, l3, l4, l5, l6⟩ := load_names_ok g gl fs hload
              refine ⟨by simpa using a1, a2 hzero, set_template_lengths gl, rfl, l1, l2, l3, l4,
                l5, hord, fun hf => ?_, fun _ hnf => ?_, fun _ path hp => ?_⟩
              · rw [hf] at hds; exact absurd hds (by simp)
              · rcases l6 with ⟨-, e⟩ | ⟨p, arr, hp, -⟩
                · rw [e]
                · rw [hnf] at hp; exact absurd hp (by simp)
              · rcases l6 with ⟨e, -⟩ | ⟨p, arr, hp2, c1, c2, c3, c4, c5⟩
                · rw [hp] at e; exact absurd e (by simp)
                · rw [hp] at hp2
                  injection hp2 with hp2
                  subst hp2
                  exact ⟨arr, c1, c2, c3, c4, c5⟩
        · rename_i hds
          injection hal with hal
          injection hal with hal
          injection hal with e1 e2
          subst e1 e2
          have hf : g.do_subst = false := by
            cases hd : g.do_subst with
            | true => exact absurd hd hds
            | false => rfl
          refine ⟨by simp, hzero, g, rfl, rfl, rfl, rfl, rfl, rfl, hord, fun _ => rfl,
            fun ht => ?_, fun ht => ?_⟩
          · rw [hf] at ht; exact absurd ht (by simp)
          · rw [hf] at ht; exact absurd ht (by simp)


theorem main_finished (g : Globals) (fs : List Nat → Option (List Nat)) (r : RunOracle)
    (res : RunResult) (h : main g fs r = .ok (.finished res)) :
    ∃ threads stats, main_setup g fs = .ok (.ready res.globals threads) ∧
      main_spawn res.globals r res.globals.num_pthreads.toNat threads
        = .ok (res.threads, res.traces) ∧
      main_join res.threads { zero_stats with before := r.run_before }
        res.globals.num_pthreads.toNat = .ok stats ∧
      res.stats = { stats with after := r.run_after } ∧
      res.status = exit_status res.stats := by
  unfold main at h
  split at h
  · exact absurd h (by simp)
  · exact absurd h (by simp)
  · rename_i g1 threads hs
    split at h
    · exact absurd h (by simp)
    · rename_i threads1 traces hsp
      split at h
      · exact absurd h (by simp)
      · rename_i stats hj
        injection h with h
        injection h with h
        subst h
        exact ⟨threads, stats, hs, hsp, hj, rfl, rfl⟩

/-- The threads joined by a finished run each made at most `num_loops` counted
steps, and there are at most `num_pthreads` of them. -/
theorem main_workers_bounded (g : Globals) (fs : List Nat → Option (List Nat)) (r : RunOracle)
    (res : RunResult) (h : main g fs r = .ok (.finished res)) :
    ((res.threads.take res.globals.num_pthreads.toNat).map (fun t => total t.stats)).sum
      ≤ res.globals.num_pthreads.toNat * res.globals.num_loops.toNat := by
  obtain ⟨threads, stats, hs, hsp, -, -, -⟩ := main_finished g fs r res h
  obtain ⟨-, -, hz, -⟩ := main_setup_ready g res.globals fs threads hs
  have hz2 : ∀ t ∈ threads, total t.stats = 0 := by
    intro t ht
    rw [hz t ht]
    rfl
  obtain ⟨-, -, -, hb⟩ := main_spawn_ok res.globals r threads hz2 _ _ _ hsp
  have h1 := sum_map_le (res.threads.take res.globals.num_pthreads.toNat)
    (fun t => total t.stats) res.globals.num_loops.toNat
    (fun t ht => hb t (List.mem_of_mem_take ht))
  have h2 : (res.threads.take res.globals.num_pthreads.toNat).length
      ≤ res.globals.num_pthreads.toNat := by
    simp
  calc _ ≤ _ := h1
    _ ≤ _ := Nat.mul_le_mul_right _ h2

theorem sum_map_mono (l : List lp_thread_t) (f k : lp_thread_t → Nat)
    (h : ∀ t, f t ≤ k t) : (l.map f).sum ≤ (l.map k).sum := by
  induction l with
  | nil => simp
  | cons a t ih =>
    simp only [List.map_cons, List.sum_cons]
    have := h a
    omega

/-- C5: after all workers are joined, the successful searches and the search
failures together number at most `W * N`, for `W` the worker count and `N` the
loop count in effect (after any ordered-mode override), whatever the opaque
operations returned. -/
theorem successes_and_search_failures_bounded (g : Globals)
    (fs : List Nat → Option (List Nat)) (r : RunOracle) (res : RunResult)
    (h : main g fs r = .ok (.finished res)) :
    res.stats.successful + res.stats.error_search_fail
      ≤ res.globals.num_pthreads.toNat * res.globals.num_loops.toNat := by
  obtain ⟨threads, stats, -, -, hj, hst, -⟩ := main_finished g fs r res h
  obtain ⟨-, j1, -, -, j4⟩ := main_join_fold _ _ _ _ hj
  have hb := main_workers_bounded g fs r res h
  have e1 : res.stats.successful = stats.successful := by rw [hst]
  have e2 : res.stats.error_search_fail = stats.error_search_fail := by rw [hst]
  rw [e1, e2, j1, j4]
  have l1 := foldl_add64_le
    ((res.threads.take res.globals.num_pthreads.toNat).map (fun t => t.stats.successful)) 0
  have l2 := foldl_add64_le
    ((res.threads.take res.globals.num_pthreads.toNat).map
      (fun t => t.stats.error_search_fail)) 0
  have l3 := sum_map_add (res.threads.take res.globals.num_pthreads.toNat)
    (fun t => t.stats.successful) (fun t => t.stats.error_search_fail)
  have l4 := sum_map_mono (res.threads.take res.globals.num_pthreads.toNat)
    (fun t => t.stats.successful + t.stats.error_search_fail) (fun t => total t.stats)
    (fun t => by simp only [total]; omega)
  simp only [zero_stats] at l1 l2 ⊢
  omega

/-- C6: a run that reaches the end of `main` exits with a non-zero status
exactly when one of the three failure counters of the totals is greater than
zero; the number of successful searches has no influence on the status. -/
theorem exit_status_nonzero_iff_failure (g : Globals) (fs : List Nat → Option (List Nat))
    (r : RunOracle) (res : RunResult) (h : main g fs r = .ok (.finished res)) :
    (res.status ≠ 0 ↔
      (0 < res.stats.error_session_init ∨ 0 < res.stats.error_bind_fail
        ∨ 0 < res.stats.error_search_fail)) ∧
    (∀ n, exit_status { res.stats with successful := n } = res.status) := by
  obtain ⟨-, -, -, -, -, -, hstat⟩ := main_finished g fs r res h
  rw [hstat]
  unfold exit_status
  constructor
  · split
    · rename_i hc
      simp only [gt_iff_lt] at hc
      simp [hc]
    · rename_i hc
      simp only [gt_iff_lt] at hc
      simp [hc]
  · intro n
    rfl


theorem main_setup_ints (g g1 : Globals) (fs : List Nat → Option (List Nat))
    (threads : List lp_thread_t) (hint : ints_in_range g)
    (h : main_setup g fs = .ok (.ready g1 threads)) :
    g1.num_pthreads ≤ INT_MAX ∧ g1.num_loops ≤ INT_MAX := by
  obtain ⟨-, -, -, g0, e, e1, e2, e3, -, -, hord, hplain, hnone, hsome⟩ :=
    main_setup_ready g g1 fs threads h
  obtain ⟨i1, i2, i3⟩ := hint
  rw [e]
  unfold apply_ordered
  cases ho : g0.ordered with
  | false => simp only [Bool.false_eq_true, if_false]; rw [e2, e3]; exact ⟨i2, i1⟩
  | true =>
    simp only [if_true]
    refine ⟨by decide, ?_⟩
    have hds := hord (by rw [← e1]; exact ho)
    cases hnf : g.names_file with
    | none => rw [hnone hds hnf]; exact i3
    | some path =>
      obtain ⟨arr, -, -, -, c, -⟩ := hsome hds path hnf
      exact c

/-- C4: each of the four counters of the totals computed by the join loop of
`main` is the exact sum (no wrap-around of the 64-bit addition) of that counter
over the workers that ran; and the join loop computes each total from the
workers' values of that one counter alone. -/
theorem aggregate_counters_are_exact_sums (g : Globals) (fs : List Nat → Option (List Nat))
    (r : RunOracle) (res : RunResult) (hint : ints_in_range g)
    (h : main g fs r = .ok (.finished res)) :
    res.stats.successful
      = ((res.threads.take res.globals.num_pthreads.toNat).map
          (fun t => t.stats.successful)).sum ∧
    res.stats.error_session_init
      = ((res.threads.take res.globals.num_pthreads.toNat).map
          (fun t => t.stats.error_session_init)).sum ∧
    res.stats.error_bind_fail
      = ((res.threads.take res.globals.num_pthreads.toNat).map
          (fun t => t.stats.error_bind_fail)).sum ∧
    res.stats.error_search_fail
      = ((res.threads.take res.globals.num_pthreads.toNat).map
          (fun t => t.stats.error_search_fail)).sum ∧
    (∀ (ths ths1 : List lp_thread_t) (s a a1 : lp_stats_t) (n : Nat),
      main_join ths s n = .ok a → main_join ths1 s n = .ok a1 →
      (ths.map (fun t => t.stats.successful) = ths1.map (fun t => t.stats.successful) →
        a.successful = a1.successful) ∧
      (ths.map (fun t => t.stats.error_session_init)
          = ths1.map (fun t => t.stats.error_session_init) →
        a.error_session_init = a1.error_session_init) ∧
      (ths.map (fun t => t.stats.error_bind_fail) = ths1.map (fun t => t.stats.error_bind_fail) →
        a.error_bind_fail = a1.error_bind_fail) ∧
      (ths.map (fun t => t.stats.error_search_fail)
          = ths1.map (fun t => t.stats.error_search_fail) →
        a.error_search_fail = a1.error_search_fail)) := by
  obtain ⟨threads, stats, hs, -, hj, hst, -⟩ := main_finished g fs r res h
  obtain ⟨-, j1, j2, j3, j4⟩ := main_join_fold _ _ _ _ hj
  have hb := main_workers_bounded g fs r res h
  obtain ⟨b1, b2⟩ := main_setup_ints g res.globals fs threads hint hs
  have hW : res.globals.num_pthreads.toNat ≤ 2147483647 := by
    simp only [INT_MAX] at b1; omega
  have hN : res.globals.num_loops.toNat ≤ 2147483647 := by
    simp only [INT_MAX] at b2; omega
  have hWN : res.globals.num_pthreads.toNat * res.globals.num_loops.toNat
      ≤ 2147483647 * 2147483647 := Nat.mul_le_mul hW hN
  have small : ∀ f : lp_thread_t → Nat, (∀ t, f t ≤ total t.stats) →
      ((res.threads.take res.globals.num_pthreads.toNat).map f).foldl add64 0
        = ((res.threads.take res.globals.num_pthreads.toNat).map f).sum := by
    intro f hf
    have l := sum_map_mono (res.threads.take res.globals.num_pthreads.toNat) f
      (fun t => total t.stats) hf
    rw [foldl_add64_exact _ 0 (by simp only [SIZE_MOD]; omega)]
    omega
  have e1 : res.stats.successful = stats.successful := by rw [hst]
  have e2 : res.stats.error_session_init = stats.error_session_init := by rw [hst]
  have e3 : res.stats.error_bind_fail = stats.error_bind_fail := by rw [hst]
  have e4 : res.stats.error_search_fail = stats.error_search_fail := by rw [hst]
  refine ⟨?_, ?_, ?_, ?_, ?_⟩
  · rw [e1, j1]
    exact small _ (fun t => by simp only [total]; omega)
  · rw [e2, j2]
    exact small _ (fun t => by simp only [total]; omega)
  · rw [e3, j3]
    exact small _ (fun t => by simp only [total]; omega)
  · rw [e4, j4]
    exact small _ (fun t => by simp only [total]; omega)
  · intro ths ths1 s a a1 n ha ha1
    obtain ⟨-, p1, p2, p3, p4⟩ := main_join_fold _ _ _ _ ha
    obtain ⟨-, q1, q2, q3, q4⟩ := main_join_fold _ _ _ _ ha1
    simp only [List.map_take] at p1 p2 p3 p4 q1 q2 q3 q4
    refine ⟨fun e => ?_, fun e => ?_, fun e => ?_, fun e => ?_⟩
    · rw [p1, q1, e]
    · rw [p2, q2, e]
    · rw [p3, q3, e]
    · rw [p4, q4, e]

theorem choose_subst_ordered (g : Globals) (arr : List lp_name_t) (i : Nat) (o : PassOracle)
    (s : Option lp_name_t) (hord : g.ordered = true) (hds : g.do_subst = true)
    (hn : g.names = some arr) (h : choose_subst g i o = .ok s) :
    ∃ e, s = some e ∧ arr.get? i = some e := by
  unfold choose_subst names_at at h
  simp only [hds, if_true, hn, hord] at h
  split at h
  · exact absurd h (by simp)
  · rename_i e he
    injection h with h
    split at he
    · exact absurd he (by simp)
    · rename_i e1 he1
      injection he with he
      subst he
      exact ⟨e1, h.symm, he1⟩

theorem take_succ_of_get_name (l : List lp_name_t) (n : Nat) (e : lp_name_t)
    (h : l.get? n = some e) : l.take (n + 1) = l.take n ++ [e] := by
  rw [List.take_succ, ← List.get?_eq_getElem?, h]
  rfl

/-- In ordered mode the passes substitute the corpus in order. -/
theorem passes_ordered (g : Globals) (o : Nat → PassOracle) (arr : List lp_name_t)
    (hord : g.ordered = true) (hds : g.do_subst = true) (hn : g.names = some arr)
    (n : Nat) (w w1 : Worker) (hw : w.trace = []) (h : passes g o n w = .ok w1) :
    (∀ j s b f k, Event.search j s b f k ∈ w1.trace →
      j < n ∧ ∃ e, s = some e ∧ arr.get? j = some e) ∧
    (substituted w1.trace).Sublist (arr.take n) ∧
    ((∀ i, i < n → opens_and_binds g (o i) = true) → substituted w1.trace = arr.take n) := by
  induction n generalizing w1 with
  | zero =>
    simp only [passes] at h
    injection h with h
    subst h
    rw [hw]
    simp [substituted]
  | succ n ih =>
    obtain ⟨wn, hwn, hp⟩ := passes_succ g o n w w1 h
    obtain ⟨i1, i2, i3⟩ := ih wn hwn
    obtain ⟨-, -, -, p4, p5, p6⟩ := pass_ok g (o n) n wn w1 hp
    refine ⟨?_, ?_, ?_⟩
    · intro j s b f k hm
      rcases p6 j s b f k hm with hm1 | ⟨hj, hc⟩
      · obtain ⟨a1, a2⟩ := i1 j s b f k hm1
        exact ⟨by omega, a2⟩
      · subst hj
        exact ⟨by omega, choose_subst_ordered g arr j (o j) s hord hds hn hc⟩
    · cases hc : (wn.ld.isSome || opens_and_binds g (o n)) with
      | false =>
        rw [p4 hc]
        exact i2.trans (List.take_sublist_take_left arr (Nat.le_succ n))
      | true =>
        obtain ⟨s, hs, hsub⟩ := p5 hc
        obtain ⟨e, he1, he2⟩ := choose_subst_ordered g arr n (o n) s hord hds hn hs
        rw [hsub, he1, take_succ_of_get_name arr n e he2]
        exact i2.append_right _
    · intro hall
      have hc : (wn.ld.isSome || opens_and_binds g (o n)) = true := by
        rw [hall n (Nat.lt_succ_self n)]; simp
      obtain ⟨s, hs, hsub⟩ := p5 hc
      obtain ⟨e, he1, he2⟩ := choose_subst_ordered g arr n (o n) s hord hds hn hs
      rw [hsub, he1, take_succ_of_get_name arr n e he2,
        i3 (fun i hi => hall i (Nat.lt_succ_of_lt hi))]
      rfl

theorem alloc_buffers_total (g : Globals) (arr : List lp_name_t) (last : lp_name_t)
    (hn : g.names = some arr) (hl : arr.get? g.names_cnt.toNat = some last)
    (ts : List lp_thread_t) : ∃ ts1, alloc_buffers g ts = .ok ts1 := by
  induction ts with
  | nil => exact ⟨[], rfl⟩
  | cons t ts ih =>
    obtain ⟨ts1, h1⟩ := ih
    simp only [alloc_buffers, hn, hl, h1]
    exact ⟨_, rfl⟩

/-- The set-up phase of `main` completes when the configuration passes the
checks, the thread count is not negative and the names file loads. -/
theorem main_setup_completes (g : Globals) (fs : List Nat → Option (List Nat))
    (hrej : config_rejected g = .ok false) (hW : 0 ≤ g.num_pthreads)
    (hds : g.do_subst = true) (path : List Nat) (hp : g.names_file = some path)
    (K : Nat) (arr : List lp_name_t) (hl : lp_names_file (fs path) = .ok ((K : Int), some arr)) :
    ∃ g1 threads, main_setup g fs = .ok (.ready g1 threads) := by
  obtain ⟨-, -, arr1, e, hlt⟩ := lp_names_file_ok _ _ _ hl (by omega)
  injection e with e
  subst e
  have hload : load_names g fs = .ok (some { g with names_cnt := (K : Int), names := some arr }) := by
    unfold load_names
    simp only [hp, hl]
    simp
  have hget : ∃ last, arr.get? ((K : Int).toNat) = some last := by
    simp only [Int.toNat_ofNat] at hlt ⊢
    exact ⟨arr.get ⟨K, hlt⟩, List.get?_eq_get hlt⟩
  obtain ⟨last, hlast⟩ := hget
  obtain ⟨ts1, hts⟩ := alloc_buffers_total
    (set_template_lengths { g with names_cnt := (K : Int), names := some arr }) arr last rfl hlast
    (List.replicate g.num_pthreads.toNat zero_thread)
  unfold main_setup
  simp only [hrej, not_lt.2 hW, if_false]
  unfold main_allocate
  rw [if_pos hds]
  simp only [hload, hts]
  exact ⟨_, _, rfl⟩

/-! ## The name corpus -/

theorem split_lines_no_newline (content : List Nat) :
    ∀ l ∈ split_lines content, NL ∉ l := by
  induction content with
  | nil => simp [split_lines]
  | cons b rest ih =>
    intro l hl
    simp only [split_lines] at hl
    split at hl
    · rcases List.mem_cons.1 hl with h | h
      · rw [h]; simp
      · exact ih l h
    · rename_i hb
      split at hl
      · simp only [List.mem_singleton] at hl
        rw [hl]
        simp only [List.mem_singleton]
        exact fun h => hb h.symm
      · rename_i l0 ls0 hsp
        rcases List.mem_cons.1 hl with h | h
        · rw [h]
          have := ih l0 (by rw [hsp]; exact List.mem_cons_self _ _)
          simp only [List.mem_cons, not_or]
          exact ⟨fun h => hb h.symm, this⟩
        · exact ih l (by rw [hsp]; exact List.mem_cons_of_mem _ h)

theorem split_lines_ne_nil (b : Nat) (rest : List Nat) : split_lines (b :: rest) ≠ [] := by
  simp only [split_lines]
  split
  · simp
  · split <;> simp

theorem join_split_lines (content : List Nat) (h : content.getLast? = some NL) :
    join_lines (split_lines content) = content := by
  induction content with
  | nil => simp at h
  | cons b rest ih =>
    cases rest with
    | nil =>
      simp only [List.getLast?_singleton, Option.some.injEq] at h
      subst h
      simp [split_lines, join_lines]
    | cons c rest2 =>
      have hl : (c :: rest2).getLast? = some NL := by
        rw [List.getLast?_cons_cons] at h; exact h
      have ih2 := ih hl
      simp only [split_lines] at ih2 ⊢
      split
      · rename_i hb
        subst hb
        simp only [join_lines, List.nil_append]
        exact congrArg _ ih2
      · have hne := split_lines_ne_nil c rest2
        simp only [split_lines] at hne
        split
        · rename_i hnil
          exact absurd hnil hne
        · rename_i l0 ls0 hsp
          rw [hsp] at ih2
          simp only [join_lines, List.cons_append] at ih2 ⊢
          exact congrArg _ ih2

theorem mem_join_lines (ls : List (List Nat)) (l : List Nat) (x : Nat) (hl : l ∈ ls)
    (hx : x ∈ l) : x ∈ join_lines ls := by
  induction ls with
  | nil => simp at hl
  | cons a t ih =>
    simp only [join_lines]
    rcases List.mem_cons.1 hl with h | h
    · subst h; exact List.mem_append_left _ hx
    · exact List.mem_append_right _ (List.mem_cons_of_mem _ (ih h))

theorem length_le_join_lines (ls : List (List Nat)) : ls.length ≤ (join_lines ls).length := by
  induction ls with
  | nil => simp
  | cons a t ih => simp [join_lines]; omega

theorem fgets_read_line (n : Nat) (l rest : List Nat) (hn : NL ∉ l) (hl : l.length < n) :
    fgets_read n (l ++ NL :: rest) = (l ++ [NL], rest) := by
  induction l generalizing n with
  | nil =>
    cases n with
    | zero => omega
    | succ n => simp [fgets_read]
  | cons b t ih =>
    cases n with
    | zero => omega
    | succ n =>
      simp only [List.mem_cons, not_or] at hn
      have hb : ¬ b = NL := fun h => hn.1 h.symm
      have := ih n hn.2 (by simpa using hl)
      simp [fgets_read, hb, this]

theorem fgets_line (l rest : List Nat) (hn : NL ∉ l) (hl : l.length ≤ 1022) :
    fgets 1024 (l ++ NL :: rest) = some (l ++ [NL, 0], rest) := by
  have h := fgets_read_line 1023 l rest hn (by omega)
  unfold fgets
  cases l with
  | nil => simp only [List.nil_append] at h ⊢; simp [h]
  | cons b t => simp only [List.cons_append] at h ⊢; simp [h]

theorem strlen_terminated (s rest : List Nat) (h0 : 0 ∉ s) :
    strlen (s ++ 0 :: rest) = s.length := by
  induction s with
  | nil => simp [strlen]
  | cons b t ih =>
    simp only [List.mem_cons, not_or] at h0
    have hb : ¬ b = 0 := fun h => h0.1 h.symm
    simp [strlen, hb, ih h0.2]

theorem longest_append (ls : List (List Nat)) (l : List Nat) :
    longest (ls ++ [l]) = Nat.max (longest ls) l.length := by
  induction ls with
  | nil => simp [longest]
  | cons a t ih =>
    simp only [longest, List.cons_append, List.foldr_cons] at ih ⊢
    rw [ih]
    generalize List.foldr (fun l m => Nat.max l.length m) 0 t = m
    simp only [Nat.max_def]
    split_ifs <;> omega

theorem take_set_succ (arr : List lp_name_t) (n : Nat) (e : lp_name_t) (h : n < arr.length) :
    (arr.set n e).take (n + 1) = arr.take n ++ [e] := by
  induction arr generalizing n with
  | nil => simp at h
  | cons a t ih =>
    cases n with
    | zero => simp
    | succ n =>
      simp only [List.length_cons] at h
      simp [ih n (by omega)]

theorem take_set_self (arr : List lp_name_t) (n : Nat) (e : lp_name_t) :
    (arr.set n e).take n = arr.take n := by
  induction arr generalizing n with
  | nil => simp
  | cons a t ih =>
    cases n with
    | zero => simp
    | succ n => simp [ih n]

theorem names_body_empty_line (st : NamesState) : names_body st [NL, 0] = .ok st := by
  simp [names_body, strlen]

theorem realloc_names_take (names : Option (List lp_name_t)) (cnt k : Nat) (n : Nat)
    (ls : List lp_name_t)
    (h : (ls = [] ∧ names = none ∧ k = 0) ∨
      (∃ arr, names = some arr ∧ arr.length = cnt + 1 ∧ arr.take k = ls))
    (hk : k ≤ cnt) (hn : cnt + 1 ≤ n) :
    (realloc_names names n).length = n ∧ (realloc_names names n).take k = ls := by
  rcases h with ⟨h1, h2, h3⟩ | ⟨arr, h1, h2, h3⟩
  · subst h1 h2 h3
    simp [realloc_names]
  · subst h1
    have e : arr.take n = arr := List.take_of_length_le (by omega)
    simp only [realloc_names, e]
    refine ⟨by simp; omega, ?_⟩
    rw [List.take_append_of_le_length (by omega)]
    exact h3

/-- One round of the reading loop on a non-empty line keeps the invariant. -/
theorem names_body_line (st : NamesState) (ls : List (List Nat)) (l : List Nat)
    (hne : l ≠ []) (h0 : 0 ∉ l) (hinv : names_inv st ls)
    (hbound : ls.length + 1000 ≤ 2147483647) :
    ∃ st1, names_body st (l ++ [NL, 0]) = .ok st1 ∧ names_inv st1 (ls ++ [l]) := by
  obtain ⟨i1, i2, i3, i4⟩ := hinv
  have hlen : strlen (l ++ [NL, 0]) = l.length + 1 := by
    have := strlen_terminated (l ++ [NL]) [] (by simp [h0])
    simpa using this
  have hpos : 0 < l.length := List.length_pos.2 hne
  have hp : (l ++ [NL, 0]).take (l.length + 1 - 1) ++ [0] = l ++ [0] := by
    simp
  have hmax : (if l.length + 1 - 1 > st.max then l.length + 1 - 1 else st.max)
      = longest (ls ++ [l]) := by
    rw [longest_append, ← i2]
    simp only [Nat.add_sub_cancel, Nat.max_def]
    split_ifs <;> omega
  have hno1 : ¬ ((st.idx : Int) + 1 > INT_MAX) := by
    simp only [INT_MAX]; omega
  unfold names_body
  simp only [hlen, hp, hmax]
  have hz1 : ¬ (l.length + 1 = 0) := by omega
  have hz2 : ¬ (l.length + 1 - 1 = 0) := by omega
  simp only [hz1, hz2, if_false]
  by_cases hc : st.idx = st.cnt
  · have hno2 : ¬ (st.idx = st.cnt ∧ (st.cnt : Int) + 1000 > INT_MAX) := by
      simp only [INT_MAX]; omega
    obtain ⟨r1, r2⟩ := realloc_names_take st.names st.cnt st.idx (st.cnt + 1000 + 1)
      (ls.map entry_of)
      (by
        rcases i4 with ⟨a, b, c⟩ | h
        · exact Or.inl ⟨by rw [a]; rfl, b, by omega⟩
        · exact Or.inr h)
      i3 (by omega)
    have hlt : st.idx < (realloc_names st.names (st.cnt + 1000 + 1)).length := by
      rw [r1]; omega
    simp only [hno2, if_false, hc, if_true]
    rw [hc] at hlt hno1 r2
    have hno3 : ¬ ((st.cnt : Int) + 1000 > INT_MAX) := by
      simp only [INT_MAX]; omega
    simp only [hlt, if_true, hno1, if_false, eq_self_iff_true, true_and, hno3]
    refine ⟨_, rfl, ?_, ?_, ?_, ?_⟩
    · simp; omega
    · rfl
    · simp
    · refine Or.inr ⟨_, rfl, by simp [r1], ?_⟩
      simp only
      rw [take_set_succ _ _ _ hlt, r2]
      simp [entry_of]
  · have hno2 : ¬ (st.idx = st.cnt ∧ (st.cnt : Int) + 1000 > INT_MAX) := fun h => hc h.1
    rcases i4 with ⟨a, b, c⟩ | ⟨arr, a, b, c⟩
    · exact absurd (by omega) hc
    · have hlt : st.idx < arr.length := by omega
      simp only [hno2, if_false, hc, a, hlt, if_true, hno1]
      refine ⟨_, rfl, ?_, ?_, ?_, ?_⟩
      · simp; omega
      · rfl
      · simp only; omega
      · refine Or.inr ⟨_, rfl, by simp [b], ?_⟩
        simp only
        rw [take_set_succ _ _ _ hlt, c]
        simp [entry_of]

/-- The reading loop of `lp_names_file` on newline-terminated lines: it ends
without fault and has collected the non-empty ones. -/
theorem names_loop_lines (lines : List (List Nat)) :
    ∀ (st : NamesState) (ls : List (List Nat)) (fuel : Nat),
      (∀ l ∈ lines, NL ∉ l ∧ 0 ∉ l ∧ l.length ≤ 1022) → names_inv st ls →
      lines.length < fuel →
      (ls ++ lines.filter (fun l => l ≠ [])).length + 999 ≤ 2147483647 →
      ∃ st1, names_loop fuel (join_lines lines) st = .ok st1 ∧
        names_inv st1 (ls ++ lines.filter (fun l => l ≠ [])) := by
  induction lines with
  | nil =>
    intro st ls fuel _ hinv hf _
    cases fuel with
    | zero => omega
    | succ f =>
      refine ⟨st, by simp [names_loop, join_lines, fgets], ?_⟩
      simpa using hinv
  | cons l rest ih =>
    intro st ls fuel hwf hinv hf hb
    cases fuel with
    | zero => omega
    | succ f =>
      obtain ⟨w1, w2, w3⟩ := hwf l (List.mem_cons_self _ _)
      have hrest : ∀ x ∈ rest, NL ∉ x ∧ 0 ∉ x ∧ x.length ≤ 1022 :=
        fun x hx => hwf x (List.mem_cons_of_mem _ hx)
      have hfg := fgets_line l (join_lines rest) w1 w3
      simp only [List.length_cons] at hf
      by_cases hl : l = []
      · subst hl
        have hfilt : (([] : List Nat) :: rest).filter (fun l => l ≠ [])
            = rest.filter (fun l => l ≠ []) := by simp
        rw [hfilt] at hb ⊢
        obtain ⟨st1, h1, h2⟩ := ih st ls f hrest hinv (by omega) hb
        refine ⟨st1, ?_, h2⟩
        simp only [names_loop, join_lines]
        simp only [List.nil_append] at hfg
        simp only [List.nil_append, hfg, names_body_empty_line]
        exact h1
      · have hfilt : (l :: rest).filter (fun l => l ≠ [])
            = l :: rest.filter (fun l => l ≠ []) := by simp [hl]
        rw [hfilt] at hb ⊢
        have hb1 : ls.length + 1000 ≤ 2147483647 := by
          simp only [List.length_append, List.length_cons] at hb; omega
        obtain ⟨st0, b1, b2⟩ := names_body_line st ls l hl w2 hinv hb1
        have e : ls ++ l :: rest.filter (fun l => l ≠ [])
            = (ls ++ [l]) ++ rest.filter (fun l => l ≠ []) := by simp
        rw [e] at hb ⊢
        obtain ⟨st1, h1, h2⟩ := ih st0 (ls ++ [l]) f hrest b2 (by omega) hb
        refine ⟨st1, ?_, h2⟩
        simp only [names_loop, join_lines, hfg, b1]
        exact h1

/-- C2, as amended: for a names source without NUL bytes whose lines are all
ended by a newline and at most 1022 bytes long, with `K >= 1` non-empty lines
(and `K` small enough for the `int` counters), `lp_names_file` returns `K`, the
first `K` slots hold the non-empty lines in file order with their lengths, and
slot `K` holds the length of the longest one. -/
theorem names_file_corpus (content : List Nat) (hnul : 0 ∉ content)
    (hterm : content.getLast? = some NL)
    (hlen : ∀ l ∈ split_lines content, l.length ≤ 1022)
    (hK : 1 ≤ (non_empty_lines content).length)
    (hmax : (non_empty_lines content).length ≤ 2147482648) :
    names_file_as_specified content := by
  have hjoin := join_split_lines content hterm
  have hwf : ∀ l ∈ split_lines content, NL ∉ l ∧ 0 ∉ l ∧ l.length ≤ 1022 := by
    intro l hl
    refine ⟨split_lines_no_newline content l hl, ?_, hlen l hl⟩
    intro h0
    exact hnul (by rw [← hjoin]; exact mem_join_lines _ l 0 hl h0)
  have hfuel : (split_lines content).length < content.length + 1 := by
    have := length_le_join_lines (split_lines content)
    rw [hjoin] at this
    omega
  have hinit : names_inv { names := none, idx := 0, cnt := 0, max := 0 } [] :=
    ⟨rfl, rfl, Nat.le_refl _, Or.inl ⟨rfl, rfl, rfl⟩⟩
  obtain ⟨st, h1, h2⟩ := names_loop_lines (split_lines content) _ [] (content.length + 1)
    hwf hinit hfuel (by simp only [List.nil_append]; unfold non_empty_lines at hmax; omega)
  rw [hjoin] at h1
  simp only [List.nil_append] at h2
  change names_inv st (non_empty_lines content) at h2
  obtain ⟨i1, i2, i3, i4⟩ := h2
  rcases i4 with ⟨a, -, -⟩ | ⟨arr, a, b, c⟩
  · rw [a] at hK; simp at hK
  · have hlt : st.idx < arr.length := by omega
    refine ⟨arr.set st.idx { len := st.max, name := none }, ?_, ?_, ?_⟩
    · unfold lp_names_file
      simp only [h1, a, hlt, if_true, i1]
      rw [i1] at hlt
      simp only [hlt, if_true]
    · rw [← i1, take_set_self]
      exact c
    · rw [← i1, ← i2]
      simp [List.getElem?_set_self hlt, hlt]


theorem split_lines_single (l : List Nat) (h : NL ∉ l) : split_lines (l ++ [NL]) = [l] := by
  induction l with
  | nil => simp [split_lines]
  | cons b t ih =>
    simp only [List.mem_cons, not_or] at h
    have hb : ¬ b = NL := fun e => h.1 e.symm
    simp [split_lines, hb, ih h.2]

/-- C2 fails as stated: a source whose single line has 1024 bytes is read in two
pieces by the 1024-byte line buffer, so `lp_names_file` returns 2 entries where
the source has one non-empty line. -/
theorem names_file_long_line_split :
    ¬ names_file_as_specified (List.replicate 1024 97 ++ [NL]) := by
  intro h
  obtain ⟨arr, h1, -, -⟩ := h
  have hk : (non_empty_lines (List.replicate 1024 97 ++ [NL])).length = 1 := by
    have hnl : NL ∉ List.replicate 1024 97 :=
      fun hm => absurd (List.eq_of_mem_replicate hm) (by decide)
    have hne : List.replicate 1024 97 ≠ [] := by
      intro e
      have := congrArg List.length e
      rw [List.length_replicate] at this
      exact absurd this (by decide)
    unfold non_empty_lines
    rw [split_lines_single _ hnl]
    simp only [List.filter_cons, List.filter_nil, ne_eq, hne, not_false_eq_true, decide_True,
      if_true, List.length_singleton]
  have h2 : (lp_names_file (some (List.replicate 1024 97 ++ [NL]))).map (fun r => r.1)
      = .ok 2 := by
    set_option maxRecDepth 100000 in decide
  rw [h1, hk] at h2
  simp [Except.map] at h2

/-- An instance of the amended C2: three names, the third line empty. -/
theorem names_file_corpus_witness :
    names_file_as_specified (str "alice\nbob\n\ncarol\n") :=
  names_file_corpus (str "alice\nbob\n\ncarol\n") (by decide) (by decide) (by decide)
    (by decide) (by decide)
theorem names_loop_empty_lines (n : Nat) (st : NamesState) (fuel : Nat) (hf : n < fuel) :
    names_loop fuel (List.replicate n NL) st = .ok st := by
  induction n generalizing fuel with
  | zero =>
    cases fuel with
    | zero => omega
    | succ f => simp [names_loop, fgets]
  | succ n ih =>
    cases fuel with
    | zero => omega
    | succ f =>
      have hfg := fgets_line [] (List.replicate n NL) (by simp) (by simp)
      simp only [List.nil_append] at hfg
      simp only [names_loop, List.replicate_succ, hfg, names_body_empty_line]
      exact ih f (by omega)

/-- C7, the code at the failing input: on a names source that opens and holds
only empty lines (or nothing at all) `lp_names_file` never allocates the array
and then stores the closing entry through the NULL pointer. -/
theorem lp_names_file_no_usable_lines (n : Nat) :
    lp_names_file (some (List.replicate n NL)) = .error .null_deref := by
  have h := names_loop_empty_lines n { names := none, idx := 0, cnt := 0, max := 0 }
    ((List.replicate n NL).length + 1) (by simp)
  unfold lp_names_file
  simp only [h]

theorem fgets_read_rest_le (n : Nat) (stream : List Nat) :
    (fgets_read n stream).2.length ≤ stream.length := by
  induction n generalizing stream with
  | zero => simp [fgets_read]
  | succ n ih =>
    cases stream with
    | nil => simp [fgets_read]
    | cons b rest =>
      simp only [fgets_read]
      split
      · simp
      · have := ih rest
        simp only [List.length_cons]
        omega

theorem fgets_consumes (stream buffer rest : List Nat)
    (h : fgets 1024 stream = some (buffer, rest)) : rest.length < stream.length := by
  unfold fgets at h
  cases stream with
  | nil => simp at h
  | cons b t =>
    simp only [Option.some.injEq, Prod.mk.injEq] at h
    obtain ⟨-, h2⟩ := h
    rw [← h2]
    have e : (1024 - 1 : Nat) = 1022 + 1 := rfl
    rw [e]
    simp only [fgets_read]
    split
    · simp
    · have := fgets_read_rest_le 1022 t
      simp only [List.length_cons]
      omega

theorem names_body_fuel (st : NamesState) (buffer : List Nat) :
    names_body st buffer ≠ .error .out_of_fuel := by
  unfold names_body
  simp only
  split
  · simp
  · split
    · simp
    · split
      · simp
      · split
        · simp
        · split
          · split <;> simp
          · simp

/-- The fuel given to the reading loop of `lp_names_file` is never used up. -/
theorem names_loop_fuel (fuel : Nat) (stream : List Nat) (st : NamesState)
    (h : stream.length < fuel) : names_loop fuel stream st ≠ .error .out_of_fuel := by
  induction fuel generalizing stream st with
  | zero => omega
  | succ f ih =>
    simp only [names_loop]
    split
    · simp
    · rename_i buffer rest hfg
      have hlt := fgets_consumes stream buffer rest hfg
      split
      · rename_i fl hb
        intro e
        injection e with e
        rw [e] at hb
        exact names_body_fuel st buffer hb
      · exact ih rest _ (by omega)

/-- Every thread record that went through the buffer allocation loop of `main`
owns a base DN buffer of `base_dn_len + names[names_cnt].len` bytes and a filter
buffer of `filter_len + names[names_cnt].len` bytes. -/
theorem alloc_buffers_sizes (g : Globals) (ts ts1 : List lp_thread_t)
    (h : alloc_buffers g ts = .ok ts1) :
    ∀ t ∈ ts1, ∃ last, names_at g g.names_cnt.toNat = .ok last ∧
      t.base_dn_len = size_add g.base_dn_len last.len ∧
      t.base_dn.mem.length = t.base_dn_len ∧
      t.filter_len = size_add g.filter_len last.len ∧
      t.filter.mem.length = t.filter_len := by
  induction ts generalizing ts1 with
  | nil =>
    simp only [alloc_buffers] at h
    injection h with h
    subst h
    simp
  | cons t ts ih =>
    simp only [alloc_buffers] at h
    split at h
    · exact absurd h (by simp)
    · rename_i arr hn
      split at h
      · exact absurd h (by simp)
      · rename_i last hl
        split at h
        · exact absurd h (by simp)
        · rename_i ts2 h2
          injection h with h
          subst h
          intro t2 ht2
          rcases List.mem_cons.1 ht2 with hm | hm
          · subst hm
            refine ⟨last, by unfold names_at; simp only [hn, hl], rfl, ?_, rfl, ?_⟩ <;>
              simp [malloc_buf]
          · exact ih ts2 h2 t2 hm

/-! ## Sample runs -/

/-- An instance of C9: with a persistent session, the first pass of a worker
opens the session and the second pass starts with it open. -/
theorem worker_session_state_machine_witness :
    ∃ w w1, passes plain_globals (odd_fail_oracle.outcome 0) 0 (worker_start zero_thread zero_time)
        = .ok w ∧
      passes plain_globals (odd_fail_oracle.outcome 0) 1 (worker_start zero_thread zero_time)
        = .ok w1 ∧ w.ld = none ∧ w1.ld.isSome = true := by
  obtain ⟨w1, h1⟩ := (worker_session_state_machine plain_globals (odd_fail_oracle.outcome 0)).2.2.2.2.2
    rfl rfl 1 (worker_start zero_thread zero_time)
  have h0 : passes plain_globals (odd_fail_oracle.outcome 0) 0 (worker_start zero_thread zero_time)
      = .ok (worker_start zero_thread zero_time) := rfl
  refine ⟨_, w1, h0, h1, rfl, ?_⟩
  exact ((worker_session_state_machine plain_globals (odd_fail_oracle.outcome 0)).1 0 _ _ w1
    h0 h1).2 ⟨Or.inr (by decide), by decide, by decide⟩

/-- An instance of C4: two workers, three passes each, the searches of the odd
passes failing. -/
theorem aggregate_counters_are_exact_sums_witness :
    main plain_globals names_fs odd_fail_oracle
      = .ok (.finished (run_result (main plain_globals names_fs odd_fail_oracle))) ∧
    (run_result (main plain_globals names_fs odd_fail_oracle)).stats.successful = 4 ∧
    (run_result (main plain_globals names_fs odd_fail_oracle)).stats.successful
      = (((run_result (main plain_globals names_fs odd_fail_oracle)).threads.take
            (run_result (main plain_globals names_fs odd_fail_oracle)).globals.num_pthreads.toNat).map
          (fun t => t.stats.successful)).sum := by
  have h : main plain_globals names_fs odd_fail_oracle
      = .ok (.finished (run_result (main plain_globals names_fs odd_fail_oracle))) := by decide
  exact ⟨h, by decide,
    (aggregate_counters_are_exact_sums plain_globals names_fs odd_fail_oracle _
      ⟨by decide, by decide, by decide⟩ h).1⟩

/-- An instance of C5: the same run counts 4 successes and 2 search failures
in 2 * 3 passes. -/
theorem successes_and_search_failures_bounded_witness :
    main plain_globals names_fs odd_fail_oracle
      = .ok (.finished (run_result (main plain_globals names_fs odd_fail_oracle))) ∧
    (run_result (main plain_globals names_fs odd_fail_oracle)).stats.error_search_fail = 2 ∧
    (run_result (main plain_globals names_fs odd_fail_oracle)).stats.successful
        + (run_result (main plain_globals names_fs odd_fail_oracle)).stats.error_search_fail
      ≤ (run_result (main plain_globals names_fs odd_fail_oracle)).globals.num_pthreads.toNat
        * (run_result (main plain_globals names_fs odd_fail_oracle)).globals.num_loops.toNat := by
  have h : main plain_globals names_fs odd_fail_oracle
      = .ok (.finished (run_result (main plain_globals names_fs odd_fail_oracle))) := by decide
  exact ⟨h, by decide,
    successes_and_search_failures_bounded plain_globals names_fs odd_fail_oracle _ h⟩

/-- An instance of C6: the same run has search failures and exits with a
non-zero status. -/
theorem exit_status_nonzero_iff_failure_witness :
    main plain_globals names_fs odd_fail_oracle
      = .ok (.finished (run_result (main plain_globals names_fs odd_fail_oracle))) ∧
    (run_result (main plain_globals names_fs odd_fail_oracle)).status ≠ 0 := by
  have h : main plain_globals names_fs odd_fail_oracle
      = .ok (.finished (run_result (main plain_globals names_fs odd_fail_oracle))) := by decide
  exact ⟨h, ((exit_status_nonzero_iff_failure plain_globals names_fs odd_fail_oracle _ h).1).2
    (Or.inr (Or.inr (by decide)))⟩

set_option maxRecDepth 100000 in
/-- C8, the code at the failing input: after `-o -r names -b cn=@ -t 0` the
thread array has no element and no buffer was allocated, yet the ordered-mode
override sets the thread count to 1, and starting thread 0 reaches outside the
array. -/
theorem ordered_zero_threads_no_buffers :
    main_setup { ordered_globals with num_pthreads := 0 } names_fs
      = .ok (.ready (setup_globals (main_setup { ordered_globals with num_pthreads := 0 } names_fs))
          []) ∧
    (setup_globals (main_setup { ordered_globals with num_pthreads := 0 } names_fs)).num_pthreads
      = 1 ∧
    ∀ r : RunOracle, main { ordered_globals with num_pthreads := 0 } names_fs r
      = .error .out_of_bounds := by
  have h : main_setup { ordered_globals with num_pthreads := 0 } names_fs
      = .ok (.ready (setup_globals (main_setup { ordered_globals with num_pthreads := 0 } names_fs))
          []) := by decide
  refine ⟨h, by decide, fun r => ?_⟩
  unfold main
  rw [h]
  have hn : (setup_globals (main_setup { ordered_globals with num_pthreads := 0 }
      names_fs)).num_pthreads.toNat = 1 := by decide
  simp only [hn]
  simp [main_spawn]

/-! ## Elapsed time -/

theorem long_result_ok (x : Int) (h : LONG_MIN ≤ x ∧ x ≤ LONG_MAX) :
    long_result x = .ok x := by
  unfold long_result
  rw [if_pos h]

/-- What `lp_timeval_sub` stores when the difference of the seconds is positive:
it borrows one second, and gives it back if the microseconds reach a full
second. -/
theorem lp_timeval_sub_later (after before : timeval)
    (ha : 0 ≤ after.tv_usec ∧ after.tv_usec < USEC)
    (hb : 0 ≤ before.tv_usec ∧ before.tv_usec < USEC)
    (hd : 0 < after.tv_sec - before.tv_sec) (hr : after.tv_sec - before.tv_sec ≤ LONG_MAX) :
    lp_timeval_sub after before =
      .ok (if USEC + after.tv_usec - before.tv_usec ≥ USEC then
            { tv_sec := after.tv_sec - before.tv_sec - 1 + 1,
              tv_usec := USEC + after.tv_usec - before.tv_usec - USEC }
          else
            { tv_sec := after.tv_sec - before.tv_sec - 1,
              tv_usec := USEC + after.tv_usec - before.tv_usec }) := by
  obtain ⟨a1, a2⟩ := ha
  obtain ⟨b1, b2⟩ := hb
  simp only [USEC, LONG_MAX] at a2 b2 hr
  have r1 := long_result_ok (after.tv_sec - before.tv_sec)
    (by simp only [LONG_MIN, LONG_MAX]; omega)
  have r2 := long_result_ok (after.tv_sec - before.tv_sec - 1)
    (by simp only [LONG_MIN, LONG_MAX]; omega)
  have r3 := long_result_ok (USEC + after.tv_usec)
    (by simp only [LONG_MIN, LONG_MAX, USEC]; omega)
  have r4 := long_result_ok (USEC + after.tv_usec - before.tv_usec)
    (by simp only [LONG_MIN, LONG_MAX, USEC]; omega)
  have r5 := long_result_ok (USEC + after.tv_usec - before.tv_usec - USEC)
    (by simp only [LONG_MIN, LONG_MAX, USEC]; omega)
  have r6 := long_result_ok (after.tv_sec - before.tv_sec - 1 + 1)
    (by simp only [LONG_MIN, LONG_MAX]; omega)
  have hpos : after.tv_sec - before.tv_sec > 0 := hd
  unfold lp_timeval_sub
  simp only [r1, hpos, if_true, r2, r3, r4]
  split
  · simp only [r5, r6]
  · rfl

/-- What `lp_timeval_sub` stores when the difference of the seconds is not
positive: the two differences, field by field. -/
theorem lp_timeval_sub_not_later (after before : timeval)
    (ha : 0 ≤ after.tv_usec ∧ after.tv_usec < USEC)
    (hb : 0 ≤ before.tv_usec ∧ before.tv_usec < USEC)
    (hd : ¬ 0 < after.tv_sec - before.tv_sec) (hr : LONG_MIN ≤ after.tv_sec - before.tv_sec) :
    lp_timeval_sub after before =
      .ok { tv_sec := after.tv_sec - before.tv_sec,
            tv_usec := 0 + after.tv_usec - before.tv_usec } := by
  obtain ⟨a1, a2⟩ := ha
  obtain ⟨b1, b2⟩ := hb
  simp only [USEC, LONG_MIN] at a2 b2 hr
  have r1 := long_result_ok (after.tv_sec - before.tv_sec)
    (by simp only [LONG_MIN, LONG_MAX]; omega)
  have r3 := long_result_ok (0 + after.tv_usec)
    (by simp only [LONG_MIN, LONG_MAX]; omega)
  have r4 := long_result_ok (0 + after.tv_usec - before.tv_usec)
    (by simp only [LONG_MIN, LONG_MAX]; omega)
  have hpos : ¬ after.tv_sec - before.tv_sec > 0 := hd
  have hsmall : ¬ (0 + after.tv_usec - before.tv_usec ≥ USEC) := by
    simp only [USEC]; omega
  unfold lp_timeval_sub
  simp only [r1, hpos, if_false, r3, r4, hsmall]

/-- C11: `lp_timeval_sub` subtracts `before` from `after`.  For two timevals
with `0 <= tv_usec < 1000000` (and a difference of the seconds that a `time_t`
can hold) the stored result satisfies
`elapsed.tv_sec * 1000000 + elapsed.tv_usec
  = (after.tv_sec * 1000000 + after.tv_usec) - (before.tv_sec * 1000000 + before.tv_usec)`,
and when `after` is not earlier than `before` the result is normalised:
`elapsed.tv_sec >= 0` and `0 <= elapsed.tv_usec < 1000000`. -/
theorem lp_timeval_sub_elapsed (after before : timeval)
    (ha : 0 ≤ after.tv_usec ∧ after.tv_usec < USEC)
    (hb : 0 ≤ before.tv_usec ∧ before.tv_usec < USEC)
    (hr : LONG_MIN ≤ after.tv_sec - before.tv_sec ∧ after.tv_sec - before.tv_sec ≤ LONG_MAX) :
    ∃ elapsed, lp_timeval_sub after before = .ok elapsed ∧
      elapsed.tv_sec * USEC + elapsed.tv_usec
        = (after.tv_sec * USEC + after.tv_usec) - (before.tv_sec * USEC + before.tv_usec) ∧
      (before.tv_sec * USEC + before.tv_usec ≤ after.tv_sec * USEC + after.tv_usec →
        0 ≤ elapsed.tv_sec ∧ 0 ≤ elapsed.tv_usec ∧ elapsed.tv_usec < USEC) := by
  by_cases hd : 0 < after.tv_sec - before.tv_sec
  · refine ⟨_, lp_timeval_sub_later after before ha hb hd hr.2, ?_, ?_⟩
    · split <;> simp only [USEC] <;> omega
    · intro _
      obtain ⟨a1, a2⟩ := ha
      obtain ⟨b1, b2⟩ := hb
      simp only [USEC] at a2 b2
      split
      · rename_i hc
        simp only [USEC] at hc ⊢
        omega
      · rename_i hc
        simp only [USEC] at hc ⊢
        omega
  · refine ⟨_, lp_timeval_sub_not_later after before ha hb hd hr.1, ?_, ?_⟩
    · simp only [USEC]; omega
    · intro hle
      obtain ⟨a1, a2⟩ := ha
      obtain ⟨b1, b2⟩ := hb
      simp only [USEC] at a2 b2 hle ⊢
      omega

/-- An instance of C11: from 3.999999 s to 10.000200 s there are 6.000201 s. -/
theorem lp_timeval_sub_elapsed_witness :
    lp_timeval_sub { tv_sec := 10, tv_usec := 200 } { tv_sec := 3, tv_usec := 999999 }
      = .ok { tv_sec := 6, tv_usec := 201 } ∧
    ∃ elapsed,
      lp_timeval_sub { tv_sec := 10, tv_usec := 200 } { tv_sec := 3, tv_usec := 999999 }
        = .ok elapsed ∧
      elapsed.tv_sec * USEC + elapsed.tv_usec
        = ((10 : Int) * USEC + 200) - ((3 : Int) * USEC + 999999) ∧
      ((3 : Int) * USEC + 999999 ≤ (10 : Int) * USEC + 200 →
        0 ≤ elapsed.tv_sec ∧ 0 ≤ elapsed.tv_usec ∧ elapsed.tv_usec < USEC) :=
  ⟨by decide,
    lp_timeval_sub_elapsed { tv_sec := 10, tv_usec := 200 } { tv_sec := 3, tv_usec := 999999 }
      (by decide) (by decide) (by decide)⟩

/-! ## The loaded corpus, for any names source -/

theorem strlen_le_length (l : List Nat) : strlen l ≤ l.length := by
  induction l with
  | nil => simp [strlen]
  | cons b t ih =>
    simp only [strlen, List.length_cons]
    split <;> omega

theorem strlen_append_nul (c : List Nat) : strlen (c ++ [0]) ≤ c.length := by
  induction c with
  | nil => simp [strlen]
  | cons b t ih =>
    have e : strlen (b :: t ++ [0]) = if b = 0 then 0 else strlen (t ++ [0]) + 1 := rfl
    rw [e]
    simp only [List.length_cons]
    split <;> omega

theorem fgets_read_length (n : Nat) (stream : List Nat) :
    (fgets_read n stream).1.length ≤ n := by
  induction n generalizing stream with
  | zero => simp [fgets_read]
  | succ n ih =>
    cases stream with
    | nil => simp [fgets_read]
    | cons b rest =>
      simp only [fgets_read]
      split
      · simp
      · have := ih rest
        simp only [List.length_cons]
        omega

theorem fgets_buffer_strlen (stream buffer rest : List Nat)
    (h : fgets 1024 stream = some (buffer, rest)) : strlen buffer ≤ 1023 := by
  unfold fgets at h
  cases stream with
  | nil => simp at h
  | cons b t =>
    simp only [Option.some.injEq, Prod.mk.injEq] at h
    obtain ⟨h1, -⟩ := h
    rw [← h1]
    have h2 := strlen_append_nul (fgets_read (1024 - 1) (b :: t)).1
    have h3 := fgets_read_length (1024 - 1) (b :: t)
    omega

theorem entry_fits_mono (M N : Nat) (e : lp_name_t) (h : entry_fits M e) (hMN : M ≤ N) :
    entry_fits N e := by
  obtain ⟨nm, h1, h2, h3⟩ := h
  exact ⟨nm, h1, h2, by omega⟩

theorem realloc_names_get (names : Option (List lp_name_t)) (n i : Nat) (e : lp_name_t)
    (arr : List lp_name_t) (hn : names = some arr) (hi : i < n) (he : arr.get? i = some e) :
    (realloc_names names n).get? i = some e := by
  subst hn
  have hlt : i < arr.length := by
    rcases Nat.lt_or_ge i arr.length with h | h
    · exact h
    · rw [List.get?_eq_none.2 h] at he; exact absurd he (by simp)
  simp only [realloc_names]
  rw [List.get?_eq_getElem?, List.getElem?_append_left (by simp; omega),
    List.getElem?_take_of_lt hi, ← List.get?_eq_getElem?]
  exact he

/-- One round of the reading loop keeps the stored entries well formed, for any
buffer that `fgets` can have filled. -/
theorem names_body_wf (st st1 : NamesState) (buffer : List Nat)
    (hb : strlen buffer ≤ 1023) (hwf : names_wf st)
    (h : names_body st buffer = .ok st1) : names_wf st1 := by
  obtain ⟨w1, w2, w3⟩ := hwf
  have hbl := strlen_le_length buffer
  unfold names_body at h
  simp only at h
  split at h
  · injection h with h; subst h; exact ⟨w1, w2, w3⟩
  · split at h
    · injection h with h; subst h; exact ⟨w1, w2, w3⟩
    · split at h
      · exact absurd h (by simp)
      · split at h
        · exact absurd h (by simp)
        · rename_i arr0 harr0
          split at h
          · rename_i hlt
            split at h
            · exact absurd h (by simp)
            · injection h with h
              subst h
              have hmax : st.max ≤ (if strlen buffer - 1 > st.max then strlen buffer - 1
                  else st.max) := by split <;> omega
              have hmax2 : strlen buffer - 1 ≤ (if strlen buffer - 1 > st.max
                  then strlen buffer - 1 else st.max) := by split <;> omega
              have hmax3 : (if strlen buffer - 1 > st.max then strlen buffer - 1
                  else st.max) ≤ 1022 := by split <;> omega
              refine ⟨hmax3, fun hc => absurd hc (by simp), ?_⟩
              intro arr harr i hi
              simp only [Option.some.injEq] at harr
              subst harr
              dsimp only at hi ⊢
              by_cases hie : i = st.idx
              · subst hie
                refine ⟨_, by rw [List.get?_eq_getElem?, List.getElem?_set_self hlt], ?_⟩
                exact ⟨_, rfl, by simp; omega, hmax2⟩
              · have hi2 : i < st.idx := by omega
                have hold : ∃ e, arr0.get? i = some e ∧ entry_fits st.max e := by
                  by_cases hc : st.idx = st.cnt
                  · simp only [hc, if_true] at harr0
                    simp only [Option.some.injEq] at harr0
                    cases hnm : st.names with
                    | none => exact absurd (w2 hnm) (by omega)
                    | some old =>
                      obtain ⟨e, he1, he2⟩ := w3 old hnm i hi2
                      refine ⟨e, ?_, he2⟩
                      rw [← harr0]
                      exact realloc_names_get _ _ i e old hnm (by omega) he1
                  · simp only [hc, if_false] at harr0
                    exact w3 arr0 harr0 i hi2
                obtain ⟨e, he1, he2⟩ := hold
                refine ⟨e, ?_, entry_fits_mono _ _ e he2 hmax⟩
                rw [List.get?_eq_getElem?, List.getElem?_set_ne (Ne.symm hie),
                  ← List.get?_eq_getElem?]
                exact he1
          · exact absurd h (by simp)

theorem names_loop_wf (fuel : Nat) (stream : List Nat) (st st1 : NamesState)
    (hwf : names_wf st) (h : names_loop fuel stream st = .ok st1) : names_wf st1 := by
  induction fuel generalizing stream st with
  | zero => simp [names_loop] at h
  | succ fuel ih =>
    simp only [names_loop] at h
    split at h
    · injection h with h; subst h; exact hwf
    · rename_i buffer rest hfg
      split at h
      · exact absurd h (by simp)
      · rename_i st2 h2
        exact ih _ st2 (names_body_wf st st2 buffer (fgets_buffer_strlen _ _ _ hfg) hwf h2) h

/-- Whatever the names source holds, a corpus that `lp_names_file` returns has
`K` entries that are names of at most `names[K].len` bytes, and that maximum is
at most 1022. -/
theorem lp_names_file_entries (file : Option (List Nat)) (K : Nat) (arr : List lp_name_t)
    (h : lp_names_file file = .ok ((K : Int), some arr)) :
    ∃ M, arr.get? K = some { len := M, name := none } ∧ M ≤ 1022 ∧
      ∀ i, i < K → ∃ e, arr.get? i = some e ∧ entry_fits M e := by
  unfold lp_names_file at h
  split at h
  · injection h with h
    injection h with h1 h2
    exact absurd h2 (by simp)
  · split at h
    · exact absurd h (by simp)
    · rename_i st hst
      have hwf := names_loop_wf _ _ _ st
        ⟨Nat.zero_le _, fun _ => rfl, fun _ _ i hi => absurd hi (by simp)⟩ hst
      obtain ⟨w1, w2, w3⟩ := hwf
      split at h
      · exact absurd h (by simp)
      · rename_i arr0 harr0
        split at h
        · rename_i hlt
          injection h with h
          injection h with h1 h2
          simp only [Option.some.injEq] at h2
          have hK : st.idx = K := by omega
          subst h2
          subst hK
          refine ⟨st.max, by rw [List.get?_eq_getElem?, List.getElem?_set_self hlt], w1, ?_⟩
          intro i hi
          obtain ⟨e, he1, he2⟩ := w3 arr0 harr0 i hi
          refine ⟨e, ?_, he2⟩
          rw [List.get?_eq_getElem?, List.getElem?_set_ne (by omega), ← List.get?_eq_getElem?]
          exact he1
        · exact absurd h (by simp)

/-! ## A worker in ordered mode never faults -/

/-- With the size assertion satisfied, `lp_strpst` returns and leaves the size
of the buffer as it was. -/
theorem lp_strpst_total (out : OutBuf) (outlen : Nat) (s nm : List Nat) (subst_len : Nat)
    (h0 : 0 ∉ s) (hnm : subst_len ≤ nm.length)
    (hout : outlen ≤ out.mem.length) (hsz : outlen < SIZE_MOD)
    (hlen : s.length + subst_len ≤ outlen) :
    ∃ r, lp_strpst out outlen (s ++ [0]) s.length nm subst_len SUBST_CHAR = .ok r ∧
      r.2.mem.length = out.mem.length := by
  by_cases hmem : SUBST_CHAR ∈ s
  · obtain ⟨e, hpre⟩ := split_first s SUBST_CHAR hmem
    generalize s.takeWhile (fun b => b ≠ SUBST_CHAR) = pre at e hpre
    generalize (s.dropWhile (fun b => b ≠ SUBST_CHAR)).drop 1 = post at e
    have h0pre : 0 ∉ pre := fun h => h0 (by rw [e]; exact List.mem_append_left _ h)
    have hl : s.length = pre.length + 1 + post.length := by
      rw [e]; simp; omega
    have htk : (nm.take subst_len).length = subst_len := by simp [hnm]
    have key := lp_strpst_found out outlen pre post (nm.take subst_len) (nm.drop subst_len)
      SUBST_CHAR h0pre hpre hout hsz (by rw [htk]; omega)
    rw [List.take_append_drop, htk] at key
    have e2 : s ++ [0] = pre ++ SUBST_CHAR :: (post ++ [0]) := by rw [e]; simp
    refine ⟨_, by rw [e2, hl]; exact key, ?_⟩
    simp only [List.length_append, List.length_cons, List.length_drop, List.length_take]
    omega
  · refine ⟨(.ret_in, out), ?_, rfl⟩
    unfold lp_strpst
    have hassert : size_add s.length subst_len ≤ outlen := by
      rw [size_add_small _ _ (by omega)]; exact hlen
    have hchr := strchr_absent s [] SUBST_CHAR (by decide) h0 hmem
    simp only [hassert, not_true_eq_false, if_false, hchr]

theorem subst_template_total (buf : OutBuf) (buflen : Nat) (s : List Nat) (M : Nat)
    (e : lp_name_t) (h0 : 0 ∉ s) (he : entry_fits M e)
    (hout : buflen ≤ buf.mem.length) (hsz : buflen < SIZE_MOD) (hlen : s.length + M ≤ buflen) :
    ∃ r, subst_template buf buflen (s ++ [0]) s.length e = .ok r ∧
      r.2.mem.length = buf.mem.length := by
  obtain ⟨nm, h1, h2, h3⟩ := he
  obtain ⟨r, hr1, hr2⟩ := lp_strpst_total buf buflen s nm e.len h0 (by omega) hout hsz
    (by omega)
  unfold subst_template
  simp only [h1, hr1]
  exact ⟨_, rfl, hr2⟩

theorem perform_substitutions_total (g : Globals) (t : lp_thread_t) (M : Nat) (b : List Nat)
    (e : lp_name_t) (hb : g.base_dn = some (b ++ [0])) (ht : templates_ok g)
    (hf : buffers_fit g M t) (he : entry_fits M e) :
    ∃ r, perform_substitutions g t (b ++ [0]) (some e) = .ok r ∧ buffers_fit g M r.1 ∧
      r.1.stats = t.stats := by
  obtain ⟨⟨b1, t1, t2, t3⟩, t4⟩ := ht
  rw [hb] at t1
  simp only [Option.some.injEq] at t1
  have hbb : b = b1 := List.append_cancel_right t1
  subst hbb
  obtain ⟨f1, f2, f3, f4, f5, f6⟩ := hf
  obtain ⟨rb, hrb1, hrb2⟩ := subst_template_total t.base_dn t.base_dn_len b M e t2 he f2 f3
    (by omega)
  unfold perform_substitutions
  cases hfl : g.filter with
  | none =>
    simp only [t3, hrb1]
    refine ⟨_, rfl, ?_, rfl⟩
    exact ⟨f1, by simp only; rw [hrb2]; exact f2, f3, f4, f5, f6⟩
  | some fr =>
    obtain ⟨f, u1, u2, u3⟩ := t4 fr hfl
    subst u1
    obtain ⟨rf, hrf1, hrf2⟩ := subst_template_total t.filter t.filter_len f M e u2 he f5 f6
      (by omega)
    simp only [t3, u3, hrb1, hrf1]
    refine ⟨_, rfl, ?_, rfl⟩
    exact ⟨f1, by simp only; rw [hrb2]; exact f2, f3, f4, by simp only; rw [hrf2]; exact f5, f6⟩

theorem lp_query_perform_total (g : Globals) (t : lp_thread_t) (M : Nat) (e : lp_name_t)
    (o : PassOracle) (ht : templates_ok g) (hf : buffers_fit g M t) (he : entry_fits M e) :
    ∃ q, lp_query_perform g t (some e) o = .ok q ∧ buffers_fit g M q.thread := by
  obtain ⟨b, hb, -, -⟩ := ht.1
  obtain ⟨r, hr1, hr2, -⟩ := perform_substitutions_total g t M b e hb ht hf he
  obtain ⟨t2, bp, fp⟩ := r
  unfold lp_query_perform
  simp only [hb, hr1]
  cases o.search_ok
  · exact ⟨_, rfl, hr2⟩
  · exact ⟨_, rfl, hr2⟩

theorem ensure_conn_buffers (g : Globals) (o : PassOracle) (w : Worker) (M : Nat)
    (hf : buffers_fit g M w.thread) : buffers_fit g M (ensure_conn g o w).thread := by
  unfold ensure_conn
  cases h : w.ld with
  | none =>
    obtain ⟨-, -, h3, h4, h5, h6⟩ := lp_conn_init_thread g w.thread o
    unfold buffers_fit at hf ⊢
    simp only [h3, h4, h5, h6]
    exact hf
  | some l => exact hf

theorem choose_subst_ordered_ok (g : Globals) (arr : List lp_name_t) (i : Nat) (o : PassOracle)
    (e : lp_name_t) (hord : g.ordered = true) (hds : g.do_subst = true)
    (hn : g.names = some arr) (hget : arr.get? i = some e) :
    choose_subst g i o = .ok (some e) := by
  unfold choose_subst names_at
  simp only [hds, hord, if_true, hn, hget]

/-- In ordered mode a pass over a corpus entry that fits the buffers does not
fault, and leaves the buffers at their sizes. -/
theorem pass_total_ordered (g : Globals) (o : PassOracle) (i : Nat) (w : Worker)
    (arr : List lp_name_t) (M : Nat) (e : lp_name_t)
    (hord : g.ordered = true) (hds : g.do_subst = true) (hn : g.names = some arr)
    (hget : arr.get? i = some e) (he : entry_fits M e) (ht : templates_ok g)
    (hf : buffers_fit g M w.thread) :
    ∃ w1, pass g o i w = .ok w1 ∧ buffers_fit g M w1.thread := by
  have hf1 := ensure_conn_buffers g o w M hf
  have hc := choose_subst_ordered_ok g arr i o e hord hds hn hget
  obtain ⟨q, hq1, hq2⟩ := lp_query_perform_total g (ensure_conn g o w).thread M e o ht hf1 he
  unfold pass
  split
  · exact ⟨_, rfl, hf1⟩
  · simp only [hc, hq1]
    split
    · exact ⟨_, rfl, hq2⟩
    · split
      · exact ⟨_, rfl, hq2⟩
      · exact ⟨_, rfl, hq2⟩

theorem passes_total_ordered (g : Globals) (o : Nat → PassOracle) (w : Worker)
    (arr : List lp_name_t) (M K : Nat)
    (hord : g.ordered = true) (hds : g.do_subst = true) (hn : g.names = some arr)
    (hent : ∀ i, i < K → ∃ e, arr.get? i = some e ∧ entry_fits M e) (ht : templates_ok g)
    (hf : buffers_fit g M w.thread) (n : Nat) (hnK : n ≤ K) :
    ∃ w1, passes g o n w = .ok w1 ∧ buffers_fit g M w1.thread := by
  induction n with
  | zero => exact ⟨w, rfl, hf⟩
  | succ n ih =>
    obtain ⟨wn, h1, h2⟩ := ih (by omega)
    obtain ⟨e, he1, he2⟩ := hent n (by omega)
    obtain ⟨w1, h3, h4⟩ := pass_total_ordered g (o n) n wn arr M e hord hds hn he1 he2 ht h2
    exact ⟨w1, by simp only [passes, h1]; exact h3, h4⟩

theorem lp_conn_init_any_thread (g : Globals) (t : lp_thread_t) (o : PassOracle) :
    (lp_conn_init g t o).1.isSome = (lp_conn_init g zero_thread o).1.isSome := by
  rw [lp_conn_init_open, lp_conn_init_open]

/-- The session of a worker that starts closed is open at the start of pass `n`
exactly when `session_at` says so. -/
theorem passes_session (g : Globals) (o : Nat → PassOracle) (n : Nat) (w0 w : Worker)
    (h0 : w0.ld = none) (h : passes g o n w0 = .ok w) :
    w.ld.isSome = session_at g o n := by
  induction n generalizing w with
  | zero =>
    simp only [passes] at h
    injection h with h
    subst h
    simp [h0, session_at]
  | succ n ih =>
    obtain ⟨wn, hn, hp⟩ := passes_succ g o n w0 w h
    have h1 := (pass_ok g (o n) n wn w hp).1
    rw [h1, ih wn hn, ← lp_conn_init_open g zero_thread (o n)]
    rfl

/-- In ordered mode the substituted values are `names[i]` for the passes `i`
that hold a session, in the order of the passes. -/
theorem passes_ordered_exact (g : Globals) (o : Nat → PassOracle) (arr : List lp_name_t)
    (hord : g.ordered = true) (hds : g.do_subst = true) (hn : g.names = some arr)
    (n : Nat) (w0 w : Worker) (h0 : w0.ld = none) (htr : w0.trace = [])
    (h : passes g o n w0 = .ok w) :
    substituted w.trace
      = (List.range n).filterMap (fun i => if holds_session g o i then arr.get? i else none) := by
  induction n generalizing w with
  | zero =>
    simp only [passes] at h
    injection h with h
    subst h
    rw [htr]
    simp [substituted]
  | succ n ih =>
    obtain ⟨wn, hwn, hp⟩ := passes_succ g o n w0 w h
    obtain ⟨-, -, -, p4, p5, -⟩ := pass_ok g (o n) n wn w hp
    have hs := passes_session g o n w0 wn h0 hwn
    have hh : holds_session g o n = (wn.ld.isSome || opens_and_binds g (o n)) := by
      unfold holds_session
      rw [hs, lp_conn_init_open]
    rw [List.range_succ, List.filterMap_append, ← ih wn hwn]
    cases hc : (wn.ld.isSome || opens_and_binds g (o n)) with
    | false =>
      rw [p4 hc]
      simp [hh, hc]
    | true =>
      obtain ⟨s, hs1, hs2⟩ := p5 hc
      obtain ⟨e, he1, he2⟩ := choose_subst_ordered g arr n (o n) s hord hds hn hs1
      have hT : holds_session g o n = true := hh.trans hc
      rw [List.get?_eq_getElem?] at he2
      rw [hs2, he1]
      simp [List.filterMap, hT, he2]

/-! ## Ordered runs -/

/-- The globals in effect and the thread array after the set-up of an ordered
run whose names file loaded `K` entries. -/
theorem main_setup_ordered (g : Globals) (fs : List Nat → Option (List Nat))
    (hrej : config_rejected g = .ok false) (hW : 0 ≤ g.num_pthreads)
    (hds : g.do_subst = true) (hord : g.ordered = true)
    (path : List Nat) (hp : g.names_file = some path)
    (K : Nat) (arr : List lp_name_t) (hl : lp_names_file (fs path) = .ok ((K : Int), some arr)) :
    ∃ ts1, alloc_buffers (set_template_lengths { g with names_cnt := (K : Int), names := some arr })
        (List.replicate g.num_pthreads.toNat zero_thread) = .ok ts1 ∧
      main_setup g fs = .ok (.ready
        { set_template_lengths { g with names_cnt := (K : Int), names := some arr } with
          num_pthreads := 1, num_loops := (K : Int) } ts1) := by
  obtain ⟨-, -, arr1, e, hlt⟩ := lp_names_file_ok _ _ _ hl (by omega)
  injection e with e
  subst e
  have hload : load_names g fs = .ok (some { g with names_cnt := (K : Int), names := some arr }) := by
    unfold load_names
    simp only [hp, hl]
    simp
  have hget : ∃ last, arr.get? ((K : Int).toNat) = some last := by
    simp only [Int.toNat_ofNat] at hlt ⊢
    exact ⟨arr.get ⟨K, hlt⟩, List.get?_eq_get hlt⟩
  obtain ⟨last, hlast⟩ := hget
  obtain ⟨ts1, hts⟩ := alloc_buffers_total
    (set_template_lengths { g with names_cnt := (K : Int), names := some arr }) arr last rfl hlast
    (List.replicate g.num_pthreads.toNat zero_thread)
  refine ⟨ts1, hts, ?_⟩
  unfold main_setup
  simp only [hrej, not_lt.2 hW, if_false]
  unfold main_allocate
  rw [if_pos hds]
  simp only [hload, hts]
  have ho : (set_template_lengths { g with names_cnt := (K : Int), names := some arr }).ordered
      = true := hord
  unfold apply_ordered
  rw [if_pos ho]
  rfl

theorem set_template_lengths_ok (g : Globals) (hs : strings_ok g) :
    templates_ok (set_template_lengths g) := by
  obtain ⟨⟨b, h1, h2, -⟩, h4⟩ := hs
  unfold templates_ok set_template_lengths
  refine ⟨⟨b, h1, h2, ?_⟩, ?_⟩
  · simp only [h1]
    exact strlen_terminated b [] h2
  · intro fr hfr
    obtain ⟨f, u1, u2, -⟩ := h4 fr hfr
    refine ⟨f, u1, u2, ?_⟩
    simp only at hfr
    simp only [hfr, u1]
    exact strlen_terminated f [] u2

theorem worker_finish_substituted (w : Worker) (t1 : timeval) :
    substituted (worker_finish w t1).trace = substituted w.trace := by
  unfold worker_finish lp_conn_close substituted
  cases w.ld <;> simp

theorem worker_finish_search (w : Worker) (t1 : timeval) (j : Nat) (s : Option lp_name_t)
    (b : List Nat) (f : Option (List Nat)) (k : Bool)
    (h : Event.search j s b f k ∈ (worker_finish w t1).trace) :
    Event.search j s b f k ∈ w.trace := by
  unfold worker_finish lp_conn_close at h
  cases hld : w.ld <;> simp [hld] at h <;> exact h

/-- C3, as amended: with ordered mode enabled, a configured worker count of at
least 1 and a corpus of `K` entries loaded, for every configured loop count and
every outcome of the opaque operations the run completes with worker count 1
and `K` loop iterations; every search of pass `i` substitutes `names[i]`; a pass
substitutes exactly when it holds a session after
`if (!ld) ld = lp_conn_init(thread);`, so the sequence of substituted values is
the corpus in file order restricted to the passes that held a session, and it is
the whole corpus when `lp_conn_init` succeeds in every pass. -/
theorem ordered_run_substitutes_held_passes (g : Globals) (fs : List Nat → Option (List Nat))
    (r : RunOracle) (hg : after_getopt g) (hord : g.ordered = true)
    (hW : 1 ≤ g.num_pthreads) (hstr : strings_ok g) (hrej : config_rejected g = .ok false)
    (path : List Nat) (hp : g.names_file = some path)
    (K : Nat) (arr : List lp_name_t) (hl : lp_names_file (fs path) = .ok ((K : Int), some arr)) :
    ∃ res tr, main g fs r = .ok (.finished res) ∧
      res.globals.num_pthreads = 1 ∧ res.globals.num_loops = (K : Int) ∧
      res.globals.names = some arr ∧ res.traces = [tr] ∧
      (∀ j s b f k, Event.search j s b f k ∈ tr →
        j < K ∧ ∃ e, s = some e ∧ arr.get? j = some e) ∧
      substituted tr = (List.range K).filterMap
        (fun i => if holds_session res.globals (r.outcome 0) i then arr.get? i else none) ∧
      ((∀ i, i < K → (lp_conn_init res.globals zero_thread (r.outcome 0 i)).1.isSome = true) →
        substituted tr = arr.take K) := by
  have hds : g.do_subst = true := by rw [hg.1, hp]; rfl
  obtain ⟨ts1, hts, hsetup⟩ := main_setup_ordered g fs hrej (by omega) hds hord path hp K arr hl
  obtain ⟨M, hM1, hM2, hent⟩ := lp_names_file_entries _ K arr hl
  generalize hG0 : set_template_lengths { g with names_cnt := (K : Int), names := some arr } = G0
    at hts hsetup
  have hG0names : G0.names = some arr := by rw [← hG0]; rfl
  have hG0cnt : G0.names_cnt = (K : Int) := by rw [← hG0]; rfl
  have hG0ord : G0.ordered = true := by rw [← hG0]; exact hord
  have hG0ds : G0.do_subst = true := by rw [← hG0]; exact hds
  have hG0t : templates_ok G0 := by
    rw [← hG0]
    exact set_template_lengths_ok _ hstr
  have hsmall : G0.base_dn_len + 1022 < SIZE_MOD ∧ G0.filter_len + 1022 < SIZE_MOD := by
    obtain ⟨⟨b, h1, h2, h3⟩, h4⟩ := hstr
    constructor
    · have : G0.base_dn_len = b.length := by
        rw [← hG0]
        simp only [set_template_lengths, h1]
        exact strlen_terminated b [] h2
      omega
    · cases hf : g.filter with
      | none =>
        have : G0.filter_len = 0 := by
          rw [← hG0]
          simp only [set_template_lengths, hf]
          exact hg.2.2.2.2
        rw [this]
        decide
      | some fr =>
        obtain ⟨f, u1, u2, u3⟩ := h4 fr hf
        have : G0.filter_len = f.length := by
          rw [← hG0]
          simp only [set_template_lengths, hf, u1]
          exact strlen_terminated f [] u2
        omega
  -- thread record 0 and its buffers
  obtain ⟨hlen1, -⟩ := alloc_buffers_ok G0 _ ts1 hts
  have hlen : 0 < ts1.length := by
    rw [hlen1, List.length_replicate]
    omega
  obtain ⟨t, ht⟩ : ∃ t, ts1.get? 0 = some t := ⟨ts1.get ⟨0, hlen⟩, List.get?_eq_get hlen⟩
  obtain ⟨last, hlast, s1, s2, s3, s4⟩ := alloc_buffers_sizes G0 _ ts1 hts t (List.get?_mem ht)
  have hlast2 : last = { len := M, name := none } := by
    unfold names_at at hlast
    rw [hG0names, hG0cnt] at hlast
    simp only [Int.toNat_ofNat, hM1] at hlast
    injection hlast with hlast
    exact hlast.symm
  have hlastlen : last.len = M := by rw [hlast2]
  rw [hlastlen, size_add_small _ _ (by omega)] at s1 s3
  have hfit : buffers_fit { G0 with num_pthreads := 1, num_loops := (K : Int) } M
      (worker_start { t with number := ((0 : Nat) : Int) } (r.thread_before 0)).thread := by
    unfold buffers_fit worker_start
    simp only
    exact ⟨by omega, by omega, by omega, by omega, by omega, by omega⟩
  obtain ⟨wn, hwn, -⟩ := passes_total_ordered { G0 with num_pthreads := 1, num_loops := (K : Int) }
    (r.outcome 0) (worker_start { t with number := ((0 : Nat) : Int) } (r.thread_before 0))
    arr M K hG0ord hG0ds hG0names hent hG0t hfit K (Nat.le_refl K)
  have henter : enter_thread { G0 with num_pthreads := 1, num_loops := (K : Int) } (r.outcome 0)
      (r.thread_before 0) (r.thread_after 0) { t with number := ((0 : Nat) : Int) }
      = .ok (worker_finish wn (r.thread_after 0)) := by
    unfold enter_thread
    simp only [Int.toNat_ofNat, hwn]
  have hspawn : main_spawn { G0 with num_pthreads := 1, num_loops := (K : Int) } r 1 ts1
      = .ok (ts1.set 0 (worker_finish wn (r.thread_after 0)).thread,
          [(worker_finish wn (r.thread_after 0)).trace]) := by
    simp only [main_spawn, ht, henter, List.nil_append]
  have hget2 : (ts1.set 0 (worker_finish wn (r.thread_after 0)).thread).get? 0
      = some (worker_finish wn (r.thread_after 0)).thread := by
    rw [List.get?_eq_getElem?, List.getElem?_set_self hlen]
  have hmain : ∃ res, main g fs r = .ok (.finished res) ∧
      res.globals = { G0 with num_pthreads := 1, num_loops := (K : Int) } ∧
      res.traces = [(worker_finish wn (r.thread_after 0)).trace] := by
    unfold main
    simp only [hsetup]
    have h1 : ((1 : Int)).toNat = 1 := rfl
    simp only [h1, hspawn, main_join, hget2]
    exact ⟨_, rfl, rfl, rfl⟩
  obtain ⟨res, hres, hglob, htraces⟩ := hmain
  obtain ⟨q1, -, q3⟩ := passes_ordered { G0 with num_pthreads := 1, num_loops := (K : Int) }
    (r.outcome 0) arr hG0ord hG0ds hG0names K _ wn rfl hwn
  have qx := passes_ordered_exact { G0 with num_pthreads := 1, num_loops := (K : Int) }
    (r.outcome 0) arr hG0ord hG0ds hG0names K _ wn rfl rfl hwn
  refine ⟨res, _, hres, by rw [hglob], by rw [hglob], by rw [hglob]; exact hG0names, htraces,
    ?_, ?_, ?_⟩
  · intro j s b f k hm
    exact q1 j s b f k (worker_finish_search wn _ j s b f k hm)
  · rw [worker_finish_substituted, hglob]
    exact qx
  · intro hall
    rw [worker_finish_substituted]
    apply q3
    intro i hi
    rw [← lp_conn_init_open _ zero_thread (r.outcome 0 i)]
    have := hall i hi
    rw [hglob] at this
    exact this

set_option maxRecDepth 100000 in
/-- C3 fails as stated: in the ordered run `-o -r names -b cn=@ -t 3 -l 7` over
the corpus `alice`, `bob`, when the session set-up of pass 0 fails the pass ends
at `if (!ld) continue;` before an entry is chosen, and the run substitutes `bob`
only. -/
theorem ordered_run_skips_failed_pass :
    (run_result (main ordered_globals names_fs first_session_fails)).traces.map substituted
      = [[entry_of (str "bob")]] ∧
    (run_result (main ordered_globals names_fs first_session_fails)).globals.names.map
      (fun a => a.take 2) = some [entry_of (str "alice"), entry_of (str "bob")] ∧
    ¬ ordered_as_specified ordered_globals names_fs first_session_fails := by
  have hm : main ordered_globals names_fs first_session_fails
      = .ok (.finished (run_result (main ordered_globals names_fs first_session_fails))) := by
    decide
  have e1 : (run_result (main ordered_globals names_fs first_session_fails)).traces.map
      substituted = [[entry_of (str "bob")]] := by decide
  have e2 : (run_result (main ordered_globals names_fs first_session_fails)).globals.names.map
      (fun a => a.take 2) = some [entry_of (str "alice"), entry_of (str "bob")] := by decide
  have e3 : (run_result (main ordered_globals names_fs first_session_fails)).globals.names_cnt
      = 2 := by decide
  refine ⟨e1, e2, ?_⟩
  rintro ⟨res, arr, K, h1, h2, h3, -, -, h6⟩
  rw [hm] at h1
  injection h1 with h1
  injection h1 with h1
  subst h1
  have hK : K = 2 := by
    rw [e3] at h3
    omega
  subst hK
  rw [h2] at e2
  simp only [Option.map_some', Option.some.injEq] at e2
  rw [e1, e2] at h6
  exact absurd h6 (by decide)

set_option maxRecDepth 100000 in
/-- An instance of the amended C3: the same run with a failing session set-up in
pass 0 finishes with one worker and two passes, and substitutes `bob`, the entry
of the one pass that held a session. -/
theorem ordered_run_substitutes_held_passes_witness :
    ∃ res tr, main ordered_globals names_fs first_session_fails = .ok (.finished res) ∧
      res.globals.num_pthreads = 1 ∧ res.globals.num_loops = 2 ∧ res.traces = [tr] ∧
      substituted tr = [entry_of (str "bob")] := by
  have hl : lp_names_file (names_fs (str "names"))
      = .ok (((2 : Nat) : Int), some (loaded_names (lp_names_file (names_fs (str "names"))))) := by
    decide
  obtain ⟨res, tr, h1, h2, h3, -, h5, -, h7, -⟩ :=
    ordered_run_substitutes_held_passes ordered_globals names_fs first_session_fails
      ⟨rfl, rfl, rfl, rfl, rfl⟩ rfl (by decide)
      ⟨⟨str "cn=@", rfl, by decide, by decide⟩, fun fr h => Option.noConfusion h⟩
      (by decide) (str "names") rfl 2 _ hl
  have hm : main ordered_globals names_fs first_session_fails
      = .ok (.finished (run_result (main ordered_globals names_fs first_session_fails))) := by
    decide
  rw [hm] at h1
  injection h1 with h1
  injection h1 with h1
  subst h1
  exact ⟨_, tr, hm, h2, h3, h5, h7.trans (by decide)⟩

end Ldapperf
